import Mathlib

/-!
# Habitus build manifest

A shallow embedding of `build/manifest.go`: the conversion of the step
descriptors read from the YAML build file into the `Manifest` handed to the
builders (`convertToBuild`), the lookup of a step by its name
(`FindStepByName`) and the substitution of the `_env(NAME)` tokens of the
build file (`parseForEnvVars`), together with their properties.

Conventions of the embedding:

* Go strings are Lean `String`s.  The only string operation of the conversion
  is `strings.Split(a, ":")`; the separator is one ASCII byte, which never
  occurs inside a multi-byte UTF-8 sequence, so splitting the characters and
  splitting the bytes agree.
* Go slices are Lean `List`s.  A struct assignment copies the slice header
  (pointer and length), and `append` never writes below the length of the
  slice it extends, so a copied struct keeps seeing exactly the elements that
  were in the slice when the copy was made: value copies are Lean values.
* `*Cleanup` is `Option Cleanup` (`none` is the nil pointer).
* A function that can index out of range has an explicit panic outcome.
* The process environment is a function from names to values, the empty
  string for a name that is not set, as `os.Getenv` reads it.
-/

namespace Habitus

/-! ## Public structs (`Artefact`, `Cleanup`, `Step`, `Manifest`) -/

/-- Cleanup holds everything that is needed for a cleanup. -/
structure Cleanup where
  Commands : List String
deriving DecidableEq, Repr

mutual
/-- Artefact holds a parsed source for a build artefact: `Order`, the copy of
the owning `Step`, `Source` and `Dest`. -/
inductive Artefact where
  | mk (order : Nat) (owner : Step) (source : String) (dest : String)
/-- Step holds a single step in the build process: `Order`, `Name`,
`Dockerfile`, `Artefacts`, the copy of the `Manifest` and the `Cleanup`
pointer. -/
inductive Step where
  | mk (order : Nat) (name : String) (dockerfile : String) (artefacts : List Artefact)
      (manifest : Manifest) (cleanup : Option Cleanup)
/-- Manifest holds the whole build process: `Steps` and `IsPrivileged`. -/
inductive Manifest where
  | mk (steps : List Step) (isPrivileged : Bool)
end

/-- Field `Order` of an `Artefact`. -/
def Artefact.Order : Artefact → Nat
  | .mk o _ _ _ => o

/-- Field `Step` of an `Artefact`. -/
def Artefact.Step : Artefact → Habitus.Step
  | .mk _ s _ _ => s

/-- Field `Source` of an `Artefact`. -/
def Artefact.Source : Artefact → String
  | .mk _ _ s _ => s

/-- Field `Dest` of an `Artefact`. -/
def Artefact.Dest : Artefact → String
  | .mk _ _ _ d => d

/-- Field `Order` of a `Step`. -/
def Step.Order : Step → Nat
  | .mk o _ _ _ _ _ => o

/-- Field `Name` of a `Step`. -/
def Step.Name : Step → String
  | .mk _ n _ _ _ _ => n

/-- Field `Dockerfile` of a `Step`. -/
def Step.Dockerfile : Step → String
  | .mk _ _ d _ _ _ => d

/-- Field `Artefacts` of a `Step`. -/
def Step.Artefacts : Step → List Artefact
  | .mk _ _ _ a _ _ => a

/-- Field `Manifest` of a `Step`. -/
def Step.Manifest : Step → Habitus.Manifest
  | .mk _ _ _ _ m _ => m

/-- Field `Cleanup` of a `Step`. -/
def Step.Cleanup : Step → Option Habitus.Cleanup
  | .mk _ _ _ _ _ c => c

/-- Field `Steps` of a `Manifest`. -/
def Manifest.Steps : Manifest → List Step
  | .mk s _ => s

/-- Field `IsPrivileged` of a `Manifest`. -/
def Manifest.IsPrivileged : Manifest → Bool
  | .mk _ p => p

/-! ## Private structs (`cleanup`, `step`, `build`), loaded from YAML -/

/-- The cleanup block of a step descriptor. -/
structure cleanup where
  Commands : List String
deriving DecidableEq, Repr

/-- A step descriptor; `Cleanup` is a pointer, `none` when the descriptor
declares no cleanup block. -/
structure step where
  Name : String
  Dockerfile : String
  Artefacts : List String
  Cleanup : Option cleanup
deriving DecidableEq, Repr

/-- Modelled from the spec: `configuration.Config` is declared in a package
outside this file.  Of its fields the conversion reads only `NoSquash`, the
"no-squash" boolean of the load configuration. -/
structure Config where
  NoSquash : Bool
deriving DecidableEq, Repr

/-- The build file as loaded.  `Config` is the pointer handed to
`LoadBuildFromFile`, which dereferences it before the conversion starts. -/
structure build where
  Workdir : String
  Steps : List step
  Config : Config
deriving DecidableEq, Repr

/-! ## `strings.Split` -/

/-- The pieces of a character sequence between the occurrences of `sep`: the
first piece and the list of the following ones. -/
def splitParts (sep : Char) : List Char → List Char × List (List Char)
  | [] => ([], [])
  | c :: cs =>
    if c = sep then ([], (splitParts sep cs).1 :: (splitParts sep cs).2)
    else (c :: (splitParts sep cs).1, (splitParts sep cs).2)

/-- Go's `strings.Split(s, sep)` for a one-byte separator: all substrings of
`s` between the separators, one more than there are separators. -/
def stringsSplit (s : String) (sep : Char) : List String :=
  ((splitParts sep s.data).1 :: (splitParts sep s.data).2).map String.mk

/-! ## `convertToBuild` -/

/-- What a call does: it returns Go's pair `(*Manifest, error)`, or it panics
at run time. -/
inductive Outcome where
  | returned (m : Option Manifest) (err : Option String)
  | panicked

/-- Lines 109-116: `parts := strings.Split(a, ":")`, `Source = parts[0]`,
`Dest = "."` when `len(parts) == 1` and `parts[1]` otherwise.  The result is
`(Source, Dest)`; `none` is an index out of range. -/
def artefactParts (a : String) : Option (String × String) :=
  let parts := stringsSplit a ':'
  match parts[0]? with
  | none => none
  | some source =>
    if parts.length = 1 then some (source, ".")
    else
      match parts[1]? with
      | none => none
      | some dest => some (source, dest)

/-- Lines 105-116, the body of the artefact loop up to the `append`: the
artefact gets the index, a copy of the step as built so far, and the two
parts of the specification. -/
def convertedArt (kdx : Nat) (convertedStep : Step) (a : String) : Option Artefact :=
  match artefactParts a with
  | none => none
  | some (source, dest) => some (Artefact.mk kdx convertedStep source dest)

/-- The assignment `convertedStep.Artefacts = append(convertedStep.Artefacts, a)`. -/
def Step.appendArtefact : Step → Artefact → Step
  | .mk o n d as m c, a => .mk o n d (as ++ [a]) m c

/-- Lines 104-119: `for kdx, a := range s.Artefacts`, from index `kdx` on. -/
def artefactLoop : List String → Nat → Step → Option Step
  | [], _, convertedStep => some convertedStep
  | a :: rest, kdx, convertedStep =>
    match convertedArt kdx convertedStep a with
    | none => none
    | some art => artefactLoop rest (kdx + 1) (convertedStep.appendArtefact art)

/-- Lines 122-126: is some step of the list named `name`? -/
def nameTaken (name : String) : List Step → Bool
  | [] => false
  | s :: rest => if s.Name = name then true else nameTaken name rest

/-- The message of `fmt.Errorf("Step name '%s' is not unique", name)`. -/
def notUniqueError (name : String) : String :=
  "Step name '" ++ name ++ "' is not unique"

/-- Lines 90-102: the step before its artefacts are converted, and the
manifest after the cleanup decision.  The step copies the manifest (line 92)
before `IsPrivileged` is assigned (line 99). -/
def startStep (config : Config) (idx : Nat) (s : step) (r : Manifest) : Step × Manifest :=
  match s.Cleanup with
  | some c =>
    if !config.NoSquash then
      (Step.mk idx s.Name s.Dockerfile [] r (some ⟨c.Commands⟩), Manifest.mk r.Steps true)
    else
      (Step.mk idx s.Name s.Dockerfile [] r (some ⟨[]⟩), r)
  | none => (Step.mk idx s.Name s.Dockerfile [] r (some ⟨[]⟩), r)

/-- Lines 89-131: `for idx, s := range b.Steps`, from index `idx` on, with
the manifest `r` built so far, and the final `return &r, nil`. -/
def stepLoop (config : Config) : List step → Nat → Manifest → Outcome
  | [], _, r => .returned (some r) none
  | s :: rest, idx, r =>
    match artefactLoop s.Artefacts 0 (startStep config idx s r).1 with
    | none => .panicked
    | some convertedStep =>
      if nameTaken convertedStep.Name (startStep config idx s r).2.Steps then
        .returned none (some (notUniqueError convertedStep.Name))
      else
        stepLoop config rest (idx + 1)
          (Manifest.mk ((startStep config idx s r).2.Steps ++ [convertedStep])
            (startStep config idx s r).2.IsPrivileged)

/-- The method `(b *build) convertToBuild()`. -/
def convertToBuild (b : build) : Outcome :=
  stepLoop b.Config b.Steps 0 (Manifest.mk [] false)

/-! ## `FindStepByName` -/

/-- Lines 136-142: the scan of `FindStepByName` over the steps, with the pair
`(*Step, error)` it returns. -/
def findStepLoop (name : String) : List Step → Option Step × Option String
  | [] => (none, none)
  | step :: rest => if step.Name = name then (some step, none) else findStepLoop name rest

/-- The method `(m *Manifest) FindStepByName(name)`. -/
def Manifest.FindStepByName (m : Manifest) (name : String) : Option Step × Option String :=
  findStepLoop name m.Steps

/-! ## `parseForEnvVars`

The pattern is `_env\((.*)\)`.  Go's `regexp` takes the leftmost match and,
for a greedy `.*`, the longest run of characters other than the newline that
still lets the rest of the pattern match: a match starts at an occurrence of
`_env(` and ends at the last `)` before the next newline. -/

/-- Modelled from the spec: the type of `config.EnvVars`, the caller-supplied
variable table, is declared in the package `configuration`, outside this
file.  It is a list of name and value pairs. -/
abbrev EnvVars := List (String × String)

/-- Modelled from the spec: `config.EnvVars.Find(name)`, declared in the
package `configuration`, resolves a name against the table; a name absent
from the table yields the empty string. -/
def EnvVars.Find (envVars : EnvVars) (name : String) : String :=
  match envVars with
  | [] => ""
  | (key, value) :: rest => if key = name then value else EnvVars.Find rest name

/-- The literal `_env(` the pattern starts with. -/
def envOpen : List Char := ['_', 'e', 'n', 'v', '(']

/-- The position of the last `)` before the first newline, where `(.*)\)`
ends when it starts at the head of the list; `none` when there is no `)`
before the first newline. -/
def lastClose : List Char → Option Nat
  | [] => none
  | c :: cs =>
    if c = '\n' then none
    else
      match lastClose cs with
      | some k => some (k + 1)
      | none => if c = ')' then some 0 else none

/-- The match of the pattern that starts at the head of the list, given by
the length `k` of its group: the match is the first `k + 6` characters, the
group the `k` characters after `_env(`. -/
def matchHere (t : List Char) : Option Nat :=
  if envOpen.isPrefixOf t then lastClose (t.drop 5) else none

/-- Go's `r.FindStringSubmatch(m)` for the pattern: the leftmost match and its
group, the empty (nil) slice when nothing matches. -/
def findStringSubmatch : List Char → List (List Char)
  | [] => []
  | c :: cs =>
    match matchHere (c :: cs) with
    | some k => [(c :: cs).take (k + 6), ((c :: cs).drop 5).take k]
    | none => findStringSubmatch cs

/-- Lines 148-157, the function handed to `ReplaceAllFunc`: the name is
`parts[1]`, looked up with `os.Getenv` when the table is empty and in the
table otherwise.  `none` is an index out of range. -/
def replaceToken (envVars : EnvVars) (getenv : String → String) (s : List Char) :
    Option (List Char) :=
  match (findStringSubmatch s)[1]? with
  | none => none
  | some name =>
    if envVars.length = 0 then some (getenv (String.mk name)).data
    else some (EnvVars.Find envVars (String.mk name)).data

/-- Go's `r.ReplaceAllFunc(value, repl)` for the pattern, as a scan of the
text: `skip` is the number of characters still to pass over because they
belong to the match replaced last.  A match is replaced by `repl` of its
text, the text outside the matches is copied; `none` when `repl` panics. -/
def replaceAllFunc (repl : List Char → Option (List Char)) :
    Nat → List Char → Option (List Char)
  | _, [] => some []
  | skip + 1, _ :: cs => replaceAllFunc repl skip cs
  | 0, c :: cs =>
    match matchHere (c :: cs) with
    | some k =>
      match repl ((c :: cs).take (k + 6)), replaceAllFunc repl (k + 5) cs with
      | some v, some out => some (v ++ out)
      | _, _ => none
    | none =>
      match replaceAllFunc repl 0 cs with
      | some out => some (c :: out)
      | none => none

/-- The function `parseForEnvVars(config, value)`: `envVars` is
`config.EnvVars`, `getenv` is the process environment as `os.Getenv` reads
it.  `none` is a run-time panic. -/
def parseForEnvVars (envVars : EnvVars) (getenv : String → String) (value : String) :
    Option String :=
  match replaceAllFunc (replaceToken envVars getenv) 0 value.data with
  | some out => some (String.mk out)
  | none => none

/-- A process environment with `A=1`, `B=2`, `FOO=bar` and nothing else. -/
def sampleEnv (name : String) : String :=
  if name = "A" then "1" else if name = "B" then "2" else if name = "FOO" then "bar" else ""

/-! ## Sample inputs -/

/-- A build file with two steps named `a` and `b`. -/
def twoSteps : build :=
  ⟨".", [⟨"a", "Da", [], none⟩, ⟨"b", "Db", [], none⟩], ⟨false⟩⟩

/-- The first step converted from `twoSteps`. -/
def twoStepsA : Step :=
  Step.mk 0 "a" "Da" [] (Manifest.mk [] false) (some ⟨[]⟩)

/-- The second step converted from `twoSteps`. -/
def twoStepsB : Step :=
  Step.mk 1 "b" "Db" [] (Manifest.mk [twoStepsA] false) (some ⟨[]⟩)

/-- The manifest converted from `twoSteps`. -/
def twoStepsManifest : Manifest :=
  Manifest.mk [twoStepsA, twoStepsB] false

/-- A build file with one step that declares two artefacts, the first one
with two colons, and a cleanup block. -/
def oneStep : build :=
  ⟨".", [⟨"s", "D", ["a:b:c", "d"], some ⟨["rm -rf /tmp"]⟩⟩], ⟨false⟩⟩

/-- The step converted from `oneStep`, holding the artefacts `arts`. -/
def oneStepWith (arts : List Artefact) : Step :=
  Step.mk 0 "s" "D" arts (Manifest.mk [] false) (some ⟨["rm -rf /tmp"]⟩)

/-- The first artefact converted from `oneStep`. -/
def oneStepArt0 : Artefact :=
  Artefact.mk 0 (oneStepWith []) "a" "b"

/-- The second artefact converted from `oneStep`. -/
def oneStepArt1 : Artefact :=
  Artefact.mk 1 (oneStepWith [oneStepArt0]) "d" "."

/-- The manifest converted from `oneStep`. -/
def oneStepManifest : Manifest :=
  Manifest.mk [oneStepWith [oneStepArt0, oneStepArt1]] true

/-- A build file whose only step declares a cleanup block without commands. -/
def emptyCleanup : build :=
  ⟨".", [⟨"a", "Da", [], some ⟨[]⟩⟩], ⟨false⟩⟩

/-- The manifest converted from `emptyCleanup`. -/
def emptyCleanupManifest : Manifest :=
  Manifest.mk [Step.mk 0 "a" "Da" [] (Manifest.mk [] false) (some ⟨[]⟩)] true

/-- A build file in which three steps are named `build`, after a step named
`base`. -/
def threeClash : build :=
  ⟨".", [⟨"base", "D0", [], none⟩, ⟨"build", "D1", [], none⟩, ⟨"build", "D2", [], none⟩,
    ⟨"build", "D3", [], none⟩], ⟨false⟩⟩

/-! ## Vocabulary of the statements -/

/-- The condition of line 97: the descriptor declares a cleanup block and the
"no-squash" option is not set. -/
def retains (config : Config) (s : step) : Bool :=
  s.Cleanup.isSome && !config.NoSquash

/-- The commands a descriptor declares: those of its cleanup block, none when
it has no cleanup block. -/
def declaredCommands (s : step) : List String :=
  match s.Cleanup with
  | some c => c.Commands
  | none => []

/-- Lines 90-119: `st` is the value of `convertedStep` when the loop body
reaches the uniqueness check, for the descriptor `s` at index `idx` and the
manifest `r` built by the earlier iterations. -/
def BuiltFrom (config : Config) (idx : Nat) (s : step) (r : Manifest) (st : Step) : Prop :=
  artefactLoop s.Artefacts 0 (startStep config idx s r).1 = some st

/-! ## Auxiliary facts: field access -/

@[simp] theorem artefact_Order_mk (o : Nat) (st : Habitus.Step) (s d : String) :
    (Artefact.mk o st s d).Order = o := rfl

@[simp] theorem artefact_Step_mk (o : Nat) (st : Habitus.Step) (s d : String) :
    (Artefact.mk o st s d).Step = st := rfl

@[simp] theorem artefact_Source_mk (o : Nat) (st : Habitus.Step) (s d : String) :
    (Artefact.mk o st s d).Source = s := rfl

@[simp] theorem artefact_Dest_mk (o : Nat) (st : Habitus.Step) (s d : String) :
    (Artefact.mk o st s d).Dest = d := rfl

@[simp] theorem step_Order_mk (o : Nat) (n d : String) (a : List Artefact)
    (m : Habitus.Manifest) (c : Option Habitus.Cleanup) : (Step.mk o n d a m c).Order = o := rfl

@[simp] theorem step_Name_mk (o : Nat) (n d : String) (a : List Artefact)
    (m : Habitus.Manifest) (c : Option Habitus.Cleanup) : (Step.mk o n d a m c).Name = n := rfl

@[simp] theorem step_Dockerfile_mk (o : Nat) (n d : String) (a : List Artefact)
    (m : Habitus.Manifest) (c : Option Habitus.Cleanup) :
    (Step.mk o n d a m c).Dockerfile = d := rfl

@[simp] theorem step_Artefacts_mk (o : Nat) (n d : String) (a : List Artefact)
    (m : Habitus.Manifest) (c : Option Habitus.Cleanup) :
    (Step.mk o n d a m c).Artefacts = a := rfl

@[simp] theorem step_Manifest_mk (o : Nat) (n d : String) (a : List Artefact)
    (m : Habitus.Manifest) (c : Option Habitus.Cleanup) :
    (Step.mk o n d a m c).Manifest = m := rfl

@[simp] theorem step_Cleanup_mk (o : Nat) (n d : String) (a : List Artefact)
    (m : Habitus.Manifest) (c : Option Habitus.Cleanup) :
    (Step.mk o n d a m c).Cleanup = c := rfl

@[simp] theorem manifest_Steps_mk (s : List Step) (p : Bool) :
    (Manifest.mk s p).Steps = s := rfl

@[simp] theorem manifest_IsPrivileged_mk (s : List Step) (p : Bool) :
    (Manifest.mk s p).IsPrivileged = p := rfl

theorem manifest_eta (m : Manifest) : Manifest.mk m.Steps m.IsPrivileged = m := by
  cases m; rfl

/-! ## Auxiliary facts: `strings.Split` -/

theorem splitParts_of_not_mem (sep : Char) (l : List Char) (h : sep ∉ l) :
    splitParts sep l = (l, []) := by
  induction l with
  | nil => rfl
  | cons c cs ih =>
    have hc : c ≠ sep := fun e => h (by simp [e])
    have hcs : sep ∉ cs := fun e => h (by simp [e])
    simp [splitParts, hc, ih hcs]

theorem splitParts_append_sep (sep : Char) (l rest : List Char) (h : sep ∉ l) :
    splitParts sep (l ++ sep :: rest)
      = (l, (splitParts sep rest).1 :: (splitParts sep rest).2) := by
  induction l with
  | nil => simp [splitParts]
  | cons c cs ih =>
    have hc : c ≠ sep := fun e => h (by simp [e])
    have hcs : sep ∉ cs := fun e => h (by simp [e])
    simp [splitParts, hc, ih hcs]

/-- The source and destination chosen by lines 109-116, in closed form. -/
theorem artefactParts_eq (a : String) :
    artefactParts a
      = some (String.mk (splitParts ':' a.data).1,
          match (splitParts ':' a.data).2 with
          | [] => "."
          | d :: _ => String.mk d) := by
  unfold artefactParts stringsSplit
  cases h : (splitParts ':' a.data).2 with
  | nil => simp
  | cons d ds => simp

/-! ## Auxiliary facts: the artefact loop -/

theorem convertedArt_eq (kdx : Nat) (st : Step) (a : String) :
    ∃ src dst, artefactParts a = some (src, dst)
      ∧ convertedArt kdx st a = some (Artefact.mk kdx st src dst) := by
  refine ⟨_, _, artefactParts_eq a, ?_⟩
  simp [convertedArt, artefactParts_eq a]

/-- The artefact loop never panics; it leaves every field of the step but
`Artefacts` alone and appends one artefact per specification, the `j`-th one
holding the index, the parts of the `j`-th specification and a copy of the
step with the artefacts appended before it. -/
theorem artefactLoop_spec (l : List String) :
    ∀ (k o : Nat) (n d : String) (as : List Artefact) (m : Manifest) (c : Option Cleanup),
      ∃ arts : List Artefact,
        artefactLoop l k (Step.mk o n d as m c) = some (Step.mk o n d (as ++ arts) m c)
        ∧ arts.length = l.length
        ∧ ∀ j a, l[j]? = some a → ∃ src dst, artefactParts a = some (src, dst)
            ∧ arts[j]? = some (Artefact.mk (k + j) (Step.mk o n d (as ++ arts.take j) m c) src dst) := by
  induction l with
  | nil =>
    intro k o n d as m c
    exact ⟨[], by simp [artefactLoop], rfl, by simp⟩
  | cons a rest ih =>
    intro k o n d as m c
    obtain ⟨src, dst, hp, hc⟩ := convertedArt_eq k (Step.mk o n d as m c) a
    obtain ⟨arts, h1, h2, h3⟩ := ih (k + 1) o n d (as ++ [Artefact.mk k (Step.mk o n d as m c) src dst]) m c
    refine ⟨Artefact.mk k (Step.mk o n d as m c) src dst :: arts, ?_, by simp [h2], ?_⟩
    · simp [artefactLoop, hc, Step.appendArtefact, h1]
    · intro j x hj
      cases j with
      | zero =>
        simp at hj
        subst hj
        exact ⟨src, dst, hp, by simp⟩
      | succ j =>
        simp at hj
        obtain ⟨s2, d2, hp2, ha2⟩ := h3 j x hj
        refine ⟨s2, d2, hp2, ?_⟩
        simp [ha2, Nat.add_assoc, Nat.add_comm 1 j]

/-! ## Auxiliary facts: the step loop -/

theorem nameTaken_iff (name : String) (l : List Step) :
    nameTaken name l = true ↔ name ∈ l.map Step.Name := by
  induction l with
  | nil => simp [nameTaken]
  | cons s rest ih =>
    by_cases h : s.Name = name
    · simp [nameTaken, h]
    · simp [nameTaken, h, ih, Ne.symm h]

theorem startStep_fst (config : Config) (idx : Nat) (s : step) (r : Manifest) :
    (startStep config idx s r).1
      = Step.mk idx s.Name s.Dockerfile [] r
          (some ⟨if retains config s then declaredCommands s else []⟩) := by
  unfold startStep retains declaredCommands
  cases s.Cleanup <;> cases config.NoSquash <;> simp

theorem startStep_snd (config : Config) (idx : Nat) (s : step) (r : Manifest) :
    (startStep config idx s r).2
      = Manifest.mk r.Steps (r.IsPrivileged || retains config s) := by
  unfold startStep retains
  cases r
  cases s.Cleanup <;> cases config.NoSquash <;> simp

/-- The fields of the step the loop body builds. -/
theorem BuiltFrom.fields {config : Config} {idx : Nat} {s : step} {r : Manifest} {st : Step}
    (h : BuiltFrom config idx s r st) :
    ∃ arts : List Artefact,
      st = Step.mk idx s.Name s.Dockerfile arts r
            (some ⟨if retains config s then declaredCommands s else []⟩)
      ∧ arts.length = s.Artefacts.length
      ∧ ∀ k a, s.Artefacts[k]? = some a → ∃ src dst, artefactParts a = some (src, dst)
          ∧ arts[k]? = some (Artefact.mk k (Step.mk idx s.Name s.Dockerfile (arts.take k) r
              (some ⟨if retains config s then declaredCommands s else []⟩)) src dst) := by
  unfold BuiltFrom at h
  rw [startStep_fst] at h
  obtain ⟨arts, h1, h2, h3⟩ := artefactLoop_spec s.Artefacts 0 idx s.Name s.Dockerfile [] r
    (some ⟨if retains config s then declaredCommands s else []⟩)
  rw [h1] at h
  refine ⟨arts, ?_, h2, ?_⟩
  · simpa using h.symm
  · intro k a hk
    obtain ⟨src, dst, hp, ha⟩ := h3 k a hk
    exact ⟨src, dst, hp, by simpa using ha⟩

theorem BuiltFrom.exists_step (config : Config) (idx : Nat) (s : step) (r : Manifest) :
    ∃ st, BuiltFrom config idx s r st := by
  unfold BuiltFrom
  rw [startStep_fst]
  obtain ⟨arts, h1, _⟩ := artefactLoop_spec s.Artefacts 0 idx s.Name s.Dockerfile [] r
    (some ⟨if retains config s then declaredCommands s else []⟩)
  exact ⟨_, h1⟩

theorem BuiltFrom.name {config : Config} {idx : Nat} {s : step} {r : Manifest} {st : Step}
    (h : BuiltFrom config idx s r st) : st.Name = s.Name := by
  obtain ⟨arts, rfl, _⟩ := h.fields
  rfl

/-- One iteration of the step loop. -/
theorem stepLoop_cons (config : Config) (s : step) (rest : List step) (idx : Nat)
    (r : Manifest) :
    ∃ st, BuiltFrom config idx s r st ∧
      stepLoop config (s :: rest) idx r =
        if nameTaken s.Name r.Steps then .returned none (some (notUniqueError s.Name))
        else stepLoop config rest (idx + 1)
          (Manifest.mk (r.Steps ++ [st]) (r.IsPrivileged || retains config s)) := by
  obtain ⟨st, hst⟩ := BuiltFrom.exists_step config idx s r
  refine ⟨st, hst, ?_⟩
  have hn := hst.name
  unfold BuiltFrom at hst
  simp [stepLoop, hst, hn, startStep_snd]

/-- A name clash makes the step loop return no manifest and an error. -/
theorem stepLoop_fail (config : Config) (l : List step) :
    ∀ (idx : Nat) (r : Manifest),
      ¬ ((l.map step.Name).Nodup ∧ ∀ s ∈ l, s.Name ∉ r.Steps.map Step.Name) →
      ∃ e, stepLoop config l idx r = .returned none (some e) := by
  induction l with
  | nil => intro idx r h; simp at h
  | cons s rest ih =>
    intro idx r h
    obtain ⟨st, hst, heq⟩ := stepLoop_cons config s rest idx r
    rw [heq]
    by_cases ht : nameTaken s.Name r.Steps = true
    · exact ⟨notUniqueError s.Name, by simp [ht]⟩
    · simp only [ht]
      have hnot : s.Name ∉ r.Steps.map Step.Name := fun hm => ht ((nameTaken_iff _ _).2 hm)
      apply ih
      rintro ⟨hnd, hall⟩
      apply h
      refine ⟨?_, ?_⟩
      · rw [List.map_cons, List.nodup_cons]
        refine ⟨?_, hnd⟩
        intro hmem
        obtain ⟨x, hx, hxn⟩ := List.mem_map.1 hmem
        apply hall x hx
        simp [hst.name, hxn]
      · intro x hx
        rcases List.mem_cons.1 hx with rfl | hx
        · exact hnot
        · intro hm
          apply hall x hx
          simp only [manifest_Steps_mk, List.map_append, List.mem_append]
          exact Or.inl hm

/-- Without a name clash the step loop returns a manifest and no error: the
manifest it started from, extended by one step per descriptor, the `j`-th one
built against the manifest as it stood after the first `j` descriptors. -/
theorem stepLoop_ok (config : Config) (l : List step) :
    ∀ (idx : Nat) (r : Manifest), (l.map step.Name).Nodup →
      (∀ s ∈ l, s.Name ∉ r.Steps.map Step.Name) →
      ∃ new : List Step,
        stepLoop config l idx r
          = .returned (some (Manifest.mk (r.Steps ++ new)
              (r.IsPrivileged || l.any (retains config)))) none
        ∧ new.length = l.length
        ∧ ∀ j s, l[j]? = some s → ∃ st, new[j]? = some st
            ∧ BuiltFrom config (idx + j) s
                (Manifest.mk (r.Steps ++ new.take j)
                  (r.IsPrivileged || (l.take j).any (retains config))) st := by
  induction l with
  | nil =>
    intro idx r _ _
    refine ⟨[], ?_, rfl, by simp⟩
    simp [stepLoop, manifest_eta]
  | cons s rest ih =>
    intro idx r hnd hall
    obtain ⟨st, hst, heq⟩ := stepLoop_cons config s rest idx r
    rw [List.map_cons, List.nodup_cons] at hnd
    have hnot : ¬ nameTaken s.Name r.Steps = true := fun ht =>
      hall s (List.mem_cons_self _ _) ((nameTaken_iff _ _).1 ht)
    simp only [hnot] at heq
    obtain ⟨new, h1, h2, h3⟩ := ih (idx + 1)
      (Manifest.mk (r.Steps ++ [st]) (r.IsPrivileged || retains config s)) hnd.2 (by
        intro x hx hm
        simp only [manifest_Steps_mk, List.map_append, List.mem_append, List.map_cons,
          List.map_nil, List.mem_singleton] at hm
        rcases hm with hm | hm
        · exact hall x (List.mem_cons_of_mem _ hx) hm
        · rw [hst.name] at hm
          exact hnd.1 (hm ▸ List.mem_map_of_mem _ hx))
    refine ⟨st :: new, ?_, by simp [h2], ?_⟩
    · rw [heq, h1]
      simp [Bool.or_assoc]
    · intro j x hj
      cases j with
      | zero =>
        simp at hj
        subst hj
        refine ⟨st, by simp, ?_⟩
        simpa [manifest_eta] using hst
      | succ j =>
        simp at hj
        obtain ⟨st2, hg, hb⟩ := h3 j x hj
        refine ⟨st2, by simpa using hg, ?_⟩
        simpa [Bool.or_assoc, Nat.add_assoc, Nat.add_comm 1 j] using hb

/-! ## Auxiliary facts: `convertToBuild` -/

theorem convertToBuild_fail (b : build) (h : ¬ (b.Steps.map step.Name).Nodup) :
    ∃ e, convertToBuild b = .returned none (some e) := by
  apply stepLoop_fail
  intro hc
  exact h hc.1

/-- The manifest of a conversion without a name clash: one step per
descriptor, the `j`-th one built against the first `j` steps. -/
theorem convertToBuild_ok (b : build) (h : (b.Steps.map step.Name).Nodup) :
    ∃ steps : List Step,
      convertToBuild b
        = .returned (some (Manifest.mk steps (b.Steps.any (retains b.Config)))) none
      ∧ steps.length = b.Steps.length
      ∧ ∀ j s, b.Steps[j]? = some s → ∃ st, steps[j]? = some st
          ∧ BuiltFrom b.Config j s
              (Manifest.mk (steps.take j) ((b.Steps.take j).any (retains b.Config))) st := by
  obtain ⟨new, h1, h2, h3⟩ := stepLoop_ok b.Config b.Steps 0 (Manifest.mk [] false) h (by simp)
  refine ⟨new, by simpa [convertToBuild] using h1, h2, ?_⟩
  intro j s hj
  obtain ⟨st, hg, hb⟩ := h3 j s hj
  exact ⟨st, hg, by simpa using hb⟩

theorem nodup_of_convertToBuild (b : build) (m : Manifest)
    (h : convertToBuild b = .returned (some m) none) : (b.Steps.map step.Name).Nodup := by
  by_contra hn
  obtain ⟨e, he⟩ := convertToBuild_fail b hn
  rw [he] at h
  cases h

/-- A successful conversion, step by step. -/
theorem convertToBuild_step (b : build) (m : Manifest)
    (h : convertToBuild b = .returned (some m) none) :
    m.IsPrivileged = b.Steps.any (retains b.Config)
    ∧ m.Steps.length = b.Steps.length
    ∧ ∀ j s, b.Steps[j]? = some s → ∃ st, m.Steps[j]? = some st
        ∧ BuiltFrom b.Config j s
            (Manifest.mk (m.Steps.take j) ((b.Steps.take j).any (retains b.Config))) st := by
  obtain ⟨steps, h1, h2, h3⟩ := convertToBuild_ok b (nodup_of_convertToBuild b m h)
  rw [h1] at h
  injection h with hm _
  injection hm with hm
  subst hm
  exact ⟨rfl, h2, h3⟩

theorem convertToBuild_names (b : build) (m : Manifest)
    (h : convertToBuild b = .returned (some m) none) :
    m.Steps.map Step.Name = b.Steps.map step.Name := by
  obtain ⟨_, hlen, hstep⟩ := convertToBuild_step b m h
  apply List.ext_getElem?
  intro j
  rw [List.getElem?_map, List.getElem?_map]
  cases hj : b.Steps[j]? with
  | none =>
    have : m.Steps[j]? = none := by
      rw [List.getElem?_eq_none_iff] at hj ⊢
      omega
    simp [this]
  | some s =>
    obtain ⟨st, hg, hb⟩ := hstep j s hj
    simp [hg, hb.name]

/-- The artefacts of a successful conversion, step by step. -/
theorem convertToBuild_artefacts (b : build) (m : Manifest)
    (h : convertToBuild b = .returned (some m) none) (i : Nat) (s : step)
    (hi : b.Steps[i]? = some s) :
    ∃ st : Step, m.Steps[i]? = some st
      ∧ st.Artefacts.length = s.Artefacts.length
      ∧ ∀ (k : Nat) (a : String), s.Artefacts[k]? = some a →
          ∃ art : Artefact, st.Artefacts[k]? = some art
            ∧ art.Order = k ∧ artefactParts a = some (art.Source, art.Dest) := by
  obtain ⟨_, _, hstep⟩ := convertToBuild_step b m h
  obtain ⟨st, hg, hb⟩ := hstep i s hi
  obtain ⟨arts, rfl, hlen, harts⟩ := hb.fields
  refine ⟨_, hg, by simpa using hlen, ?_⟩
  intro k a hk
  obtain ⟨src, dst, hp, ha⟩ := harts k a hk
  exact ⟨_, ha, rfl, by simpa using hp⟩

theorem artefactParts_no_colon (a : String) (h : ':' ∉ a.data) :
    artefactParts a = some (a, ".") := by
  rw [artefactParts_eq, splitParts_of_not_mem _ _ h]

theorem artefactParts_colon (a rest : String) (h : ':' ∉ a.data) :
    artefactParts (a ++ ":" ++ rest) = some (a, String.mk (splitParts ':' rest.data).1) := by
  have hd : (a ++ ":" ++ rest).data = a.data ++ ':' :: rest.data := by
    simp [String.data_append]
  rw [artefactParts_eq, hd, splitParts_append_sep _ _ _ h]

/-- The cleanup of the steps of a successful conversion. -/
theorem convertToBuild_cleanup (b : build) (m : Manifest)
    (h : convertToBuild b = .returned (some m) none) (i : Nat) (s : step)
    (hi : b.Steps[i]? = some s) :
    ∃ st : Step, m.Steps[i]? = some st
      ∧ st.Cleanup = some ⟨if retains b.Config s then declaredCommands s else []⟩ := by
  obtain ⟨_, _, hstep⟩ := convertToBuild_step b m h
  obtain ⟨st, hg, hb⟩ := hstep i s hi
  obtain ⟨arts, rfl, _⟩ := hb.fields
  exact ⟨_, hg, rfl⟩

/-- Every step of a returned manifest comes from the descriptor at its index. -/
theorem convertToBuild_mem (b : build) (m : Manifest)
    (h : convertToBuild b = .returned (some m) none) (st : Step) (hst : st ∈ m.Steps) :
    ∃ s ∈ b.Steps,
      st.Cleanup = some ⟨if retains b.Config s then declaredCommands s else []⟩ := by
  obtain ⟨i, hi, hget⟩ := List.getElem_of_mem hst
  have hlen := (convertToBuild_step b m h).2.1
  have hib : i < b.Steps.length := hlen ▸ hi
  obtain ⟨st2, hg, hc⟩ := convertToBuild_cleanup b m h i b.Steps[i]
    (List.getElem?_eq_getElem hib)
  rw [List.getElem?_eq_getElem hi, hget] at hg
  injection hg with hg
  subst hg
  exact ⟨b.Steps[i], List.getElem_mem _, hc⟩

/-- The conversion never indexes out of range. -/
theorem convertToBuild_never_panics (b : build) : convertToBuild b ≠ .panicked := by
  intro hp
  by_cases hn : (b.Steps.map step.Name).Nodup
  · obtain ⟨steps, h1, _⟩ := convertToBuild_ok b hn
    rw [h1] at hp
    cases hp
  · obtain ⟨e, he⟩ := convertToBuild_fail b hn
    rw [he] at hp
    cases hp

/-! ## Claims -/

/-- C1: `convertToBuild` returns an error if and only if two descriptors of
the list have the same `Name`; whenever it returns an error it returns no
manifest, and when the names are pairwise distinct it returns a manifest and
no error. -/
theorem convertToBuild_error_iff_duplicate (b : build) :
    ((∃ m e, convertToBuild b = .returned m (some e)) ↔ ¬ (b.Steps.map step.Name).Nodup)
    ∧ (∀ m e, convertToBuild b = .returned m (some e) → m = none)
    ∧ ((b.Steps.map step.Name).Nodup → ∃ m, convertToBuild b = .returned (some m) none) := by
  have key : ∀ m e, convertToBuild b = .returned m (some e) →
      m = none ∧ ¬ (b.Steps.map step.Name).Nodup := by
    intro m e h
    by_cases hn : (b.Steps.map step.Name).Nodup
    · obtain ⟨steps, h1, _⟩ := convertToBuild_ok b hn
      rw [h1] at h
      cases h
    · obtain ⟨e2, he⟩ := convertToBuild_fail b hn
      rw [he] at h
      injection h with hm _
      exact ⟨hm.symm, hn⟩
  refine ⟨⟨?_, ?_⟩, fun m e h => (key m e h).1, ?_⟩
  · rintro ⟨m, e, h⟩
    exact (key m e h).2
  · intro hn
    obtain ⟨e, he⟩ := convertToBuild_fail b hn
    exact ⟨none, e, he⟩
  · intro hn
    obtain ⟨steps, h1, _⟩ := convertToBuild_ok b hn
    exact ⟨_, h1⟩

/-- C2: for descriptors with pairwise distinct names the returned manifest
has as many steps as there are descriptors, and its `i`-th step has
`Order = i` and the `Name` and `Dockerfile` of the `i`-th descriptor. -/
theorem convertToBuild_preserves_order (b : build) (h : (b.Steps.map step.Name).Nodup) :
    ∃ m : Manifest, convertToBuild b = .returned (some m) none
      ∧ m.Steps.length = b.Steps.length
      ∧ ∀ (i : Nat) (s : step), b.Steps[i]? = some s → ∃ st : Step, m.Steps[i]? = some st
          ∧ st.Order = i ∧ st.Name = s.Name ∧ st.Dockerfile = s.Dockerfile := by
  obtain ⟨steps, h1, h2, h3⟩ := convertToBuild_ok b h
  refine ⟨_, h1, by simpa using h2, ?_⟩
  intro i s hi
  obtain ⟨st, hg, hb⟩ := h3 i s hi
  obtain ⟨arts, rfl, _⟩ := hb.fields
  exact ⟨_, hg, rfl, rfl, rfl⟩

/-- C3: in a manifest returned by `convertToBuild` no two steps at different
indices have the same `Name`. -/
theorem convertToBuild_names_unique (b : build) (m : Manifest)
    (h : convertToBuild b = .returned (some m) none) :
    ∀ (i j : Nat) (s t : Step),
      m.Steps[i]? = some s → m.Steps[j]? = some t → i ≠ j → s.Name ≠ t.Name := by
  have hnd : (m.Steps.map Step.Name).Nodup := by
    rw [convertToBuild_names b m h]
    exact nodup_of_convertToBuild b m h
  intro i j s t hi hj hij heq
  rw [List.nodup_iff_getElem?_ne_getElem?] at hnd
  have hlen_i : i < (m.Steps.map Step.Name).length := by
    simpa using (List.getElem?_eq_some.1 hi).1
  have hlen_j : j < (m.Steps.map Step.Name).length := by
    simpa using (List.getElem?_eq_some.1 hj).1
  rcases Nat.lt_or_gt_of_ne hij with hlt | hgt
  · apply hnd i j hlt hlen_j
    simp [List.getElem?_map, hi, hj, heq]
  · apply hnd j i hgt hlen_i
    simp [List.getElem?_map, hi, hj, heq]

theorem convertToBuild_error_iff_duplicate_witness :
    (∃ m, convertToBuild
        ⟨".", [⟨"a", "Dockerfile", ["x:y"], none⟩, ⟨"b", "Dockerfile.b", [], some ⟨["rm"]⟩⟩],
          ⟨false⟩⟩ = .returned (some m) none)
    ∧ ∃ m e, convertToBuild
        ⟨".", [⟨"build", "Dockerfile", [], none⟩, ⟨"build", "Dockerfile.b", [], none⟩],
          ⟨false⟩⟩ = .returned m (some e) :=
  ⟨(convertToBuild_error_iff_duplicate _).2.2 (by decide),
   (convertToBuild_error_iff_duplicate _).1.2 (by decide)⟩

theorem convertToBuild_preserves_order_witness :
    ∃ m : Manifest, convertToBuild
        ⟨".", [⟨"x", "Dx", [], none⟩, ⟨"y", "Dy", [], none⟩, ⟨"z", "Dz", [], none⟩], ⟨false⟩⟩
        = .returned (some m) none
      ∧ m.Steps.length = 3
      ∧ ∀ (i : Nat) (s : step),
          [(⟨"x", "Dx", [], none⟩ : step), ⟨"y", "Dy", [], none⟩, ⟨"z", "Dz", [], none⟩][i]?
            = some s →
          ∃ st : Step, m.Steps[i]? = some st
            ∧ st.Order = i ∧ st.Name = s.Name ∧ st.Dockerfile = s.Dockerfile :=
  convertToBuild_preserves_order
    ⟨".", [⟨"x", "Dx", [], none⟩, ⟨"y", "Dy", [], none⟩, ⟨"z", "Dz", [], none⟩], ⟨false⟩⟩
    (by decide)

theorem convertToBuild_names_unique_witness :
    convertToBuild twoSteps = .returned (some twoStepsManifest) none
    ∧ twoStepsManifest.Steps[0]? = some twoStepsA
    ∧ twoStepsManifest.Steps[1]? = some twoStepsB
    ∧ twoStepsA.Name ≠ twoStepsB.Name :=
  ⟨rfl, rfl, rfl,
   convertToBuild_names_unique twoSteps twoStepsManifest rfl 0 1 twoStepsA twoStepsB rfl rfl
     (by decide)⟩

/-- C4: an artefact specification without a colon (the empty one included)
is converted, without an index out of range, into an artefact whose `Source`
is the whole specification and whose `Dest` is `"."`; so it is for the loop
body and for the artefacts of every manifest `convertToBuild` returns, and a
conversion that meets such a specification does not panic. -/
theorem artefact_without_colon (a : String) (h : ':' ∉ a.data) :
    (∀ (kdx : Nat) (st : Step), convertedArt kdx st a = some (Artefact.mk kdx st a "."))
    ∧ (∀ b : build, (∃ s ∈ b.Steps, a ∈ s.Artefacts) → convertToBuild b ≠ .panicked)
    ∧ ∀ (b : build) (m : Manifest) (i k : Nat) (s : step),
        convertToBuild b = .returned (some m) none → b.Steps[i]? = some s →
        s.Artefacts[k]? = some a →
        ∃ (st : Step) (art : Artefact), m.Steps[i]? = some st ∧ st.Artefacts[k]? = some art
          ∧ art.Source = a ∧ art.Dest = "." := by
  have hp := artefactParts_no_colon a h
  refine ⟨fun kdx st => by simp [convertedArt, hp],
    fun b _ => convertToBuild_never_panics b, ?_⟩
  intro b m i k s hb hi hk
  obtain ⟨st, hg, _, harts⟩ := convertToBuild_artefacts b m hb i s hi
  obtain ⟨art, ha, _, hparts⟩ := harts k a hk
  rw [hp] at hparts
  injection hparts with hparts
  injection hparts with h1 h2
  exact ⟨st, art, hg, ha, h1.symm, h2.symm⟩

theorem artefact_without_colon_witness :
    ':' ∉ "".data
    ∧ convertedArt 0 twoStepsA "" = some (Artefact.mk 0 twoStepsA "" ".") :=
  ⟨by decide, (artefact_without_colon "" (by decide)).1 0 twoStepsA⟩

/-- C5: a specification `a ++ ":" ++ b` with no colon in `a` or in `b` is
converted into an artefact with `Source = a` and `Dest = b`. -/
theorem artefact_with_one_colon (a d : String) (ha : ':' ∉ a.data) (hd : ':' ∉ d.data) :
    (∀ (kdx : Nat) (st : Step),
        convertedArt kdx st (a ++ ":" ++ d) = some (Artefact.mk kdx st a d))
    ∧ ∀ (b : build) (m : Manifest) (i k : Nat) (s : step),
        convertToBuild b = .returned (some m) none → b.Steps[i]? = some s →
        s.Artefacts[k]? = some (a ++ ":" ++ d) →
        ∃ (st : Step) (art : Artefact), m.Steps[i]? = some st ∧ st.Artefacts[k]? = some art
          ∧ art.Source = a ∧ art.Dest = d := by
  have hp : artefactParts (a ++ ":" ++ d) = some (a, d) := by
    rw [artefactParts_colon a d ha, splitParts_of_not_mem _ _ hd]
  refine ⟨fun kdx st => by simp [convertedArt, hp], ?_⟩
  intro b m i k s hb hi hk
  obtain ⟨st, hg, _, harts⟩ := convertToBuild_artefacts b m hb i s hi
  obtain ⟨art, hart, _, hparts⟩ := harts k _ hk
  rw [hp] at hparts
  injection hparts with hparts
  injection hparts with h1 h2
  exact ⟨st, art, hg, hart, h1.symm, h2.symm⟩

theorem artefact_with_one_colon_witness :
    ':' ∉ "bin/app".data ∧ ':' ∉ "/usr/local".data
    ∧ convertedArt 3 twoStepsB ("bin/app" ++ ":" ++ "/usr/local")
        = some (Artefact.mk 3 twoStepsB "bin/app" "/usr/local") :=
  ⟨by decide, by decide,
   (artefact_with_one_colon "bin/app" "/usr/local" (by decide) (by decide)).1 3 twoStepsB⟩

/-- C6, as the code has it: the specification is split at every colon, and
`Dest` is the text between the first colon and the second one.  For a
specification `a ++ ":" ++ d ++ ":" ++ rest` with no colon in `a` or in `d`
the artefact has `Source = a` and `Dest = d`, whatever `rest` is. -/
theorem artefact_with_more_colons (a d rest : String) (ha : ':' ∉ a.data)
    (hd : ':' ∉ d.data) :
    (∀ (kdx : Nat) (st : Step),
        convertedArt kdx st (a ++ ":" ++ d ++ ":" ++ rest) = some (Artefact.mk kdx st a d))
    ∧ ∀ (b : build) (m : Manifest) (i k : Nat) (s : step),
        convertToBuild b = .returned (some m) none → b.Steps[i]? = some s →
        s.Artefacts[k]? = some (a ++ ":" ++ d ++ ":" ++ rest) →
        ∃ (st : Step) (art : Artefact), m.Steps[i]? = some st ∧ st.Artefacts[k]? = some art
          ∧ art.Source = a ∧ art.Dest = d := by
  have hp : artefactParts (a ++ ":" ++ d ++ ":" ++ rest) = some (a, d) := by
    have e : a ++ ":" ++ d ++ ":" ++ rest = a ++ ":" ++ (d ++ ":" ++ rest) := by
      simp [String.append_assoc]
    have hd2 : (d ++ ":" ++ rest).data = d.data ++ ':' :: rest.data := by
      simp [String.data_append]
    rw [e, artefactParts_colon a _ ha, hd2, splitParts_append_sep _ _ _ hd]
  refine ⟨fun kdx st => by simp [convertedArt, hp], ?_⟩
  intro b m i k s hb hi hk
  obtain ⟨st, hg, _, harts⟩ := convertToBuild_artefacts b m hb i s hi
  obtain ⟨art, hart, _, hparts⟩ := harts k _ hk
  rw [hp] at hparts
  injection hparts with hparts
  injection hparts with h1 h2
  exact ⟨st, art, hg, hart, h1.symm, h2.symm⟩

theorem artefact_with_more_colons_witness :
    ':' ∉ "a".data ∧ ':' ∉ "b".data
    ∧ convertedArt 0 (oneStepWith []) ("a" ++ ":" ++ "b" ++ ":" ++ "c") = some oneStepArt0 :=
  ⟨by decide, by decide,
   (artefact_with_more_colons "a" "b" "c" (by decide) (by decide)).1 0 (oneStepWith [])⟩

/-- C6 as stated fails: the specification `"a:b:c"` is converted into an
artefact with `Dest = "b"`, not `"b:c"`, and `Source ++ ":" ++ Dest` is
`"a:b"`, not the specification. -/
theorem artefact_with_more_colons_counterexample :
    convertToBuild oneStep = .returned (some oneStepManifest) none
    ∧ oneStep.Steps.map step.Artefacts = [["a:b:c", "d"]]
    ∧ oneStepManifest.Steps.map Step.Artefacts = [[oneStepArt0, oneStepArt1]]
    ∧ oneStepArt0.Source = "a"
    ∧ oneStepArt0.Dest = "b"
    ∧ oneStepArt0.Dest ≠ "b:c"
    ∧ oneStepArt0.Source ++ ":" ++ oneStepArt0.Dest ≠ "a:b:c" :=
  ⟨rfl, rfl, rfl, rfl, rfl, by decide, by decide⟩

/-- C7: in a successful conversion the `i`-th step has as many artefacts as
the `i`-th descriptor has specifications, and its `k`-th artefact has
`Order = k` and the `Source` and `Dest` parsed from the `k`-th specification. -/
theorem convertToBuild_artefacts_in_order (b : build) (m : Manifest)
    (h : convertToBuild b = .returned (some m) none) (i : Nat) (s : step)
    (hi : b.Steps[i]? = some s) :
    ∃ st : Step, m.Steps[i]? = some st
      ∧ st.Artefacts.length = s.Artefacts.length
      ∧ ∀ (k : Nat) (a : String), s.Artefacts[k]? = some a →
          ∃ art : Artefact, st.Artefacts[k]? = some art
            ∧ art.Order = k ∧ artefactParts a = some (art.Source, art.Dest) :=
  convertToBuild_artefacts b m h i s hi

theorem convertToBuild_artefacts_in_order_witness :
    convertToBuild oneStep = .returned (some oneStepManifest) none
    ∧ oneStep.Steps[0]? = some ⟨"s", "D", ["a:b:c", "d"], some ⟨["rm -rf /tmp"]⟩⟩
    ∧ ∃ st : Step, oneStepManifest.Steps[0]? = some st
      ∧ st.Artefacts.length = ["a:b:c", "d"].length
      ∧ ∀ (k : Nat) (a : String), ["a:b:c", "d"][k]? = some a →
          ∃ art : Artefact, st.Artefacts[k]? = some art
            ∧ art.Order = k ∧ artefactParts a = some (art.Source, art.Dest) :=
  ⟨rfl, rfl, convertToBuild_artefacts_in_order oneStep oneStepManifest rfl 0 _ rfl⟩

/-- C8: with "no-squash" unset and pairwise distinct names, a step whose
descriptor declares a cleanup block carries exactly the declared commands, a
step whose descriptor declares none carries a cleanup without commands, and
the manifest is privileged as soon as one descriptor declares a non-empty
cleanup block. -/
theorem cleanup_kept_when_squashing (b : build) (h : (b.Steps.map step.Name).Nodup)
    (hs : b.Config.NoSquash = false) :
    ∃ m : Manifest, convertToBuild b = .returned (some m) none
      ∧ (∀ (i : Nat) (s : step), b.Steps[i]? = some s →
          ∃ st : Step, m.Steps[i]? = some st
            ∧ (∀ c : cleanup, s.Cleanup = some c → st.Cleanup = some ⟨c.Commands⟩)
            ∧ (s.Cleanup = none → st.Cleanup = some ⟨[]⟩))
      ∧ ((∃ s ∈ b.Steps, ∃ c : cleanup, s.Cleanup = some c ∧ c.Commands ≠ []) →
          m.IsPrivileged = true) := by
  obtain ⟨steps, h1, _⟩ := convertToBuild_ok b h
  refine ⟨_, h1, ?_, ?_⟩
  · intro i s hi
    obtain ⟨st, hg, hc⟩ := convertToBuild_cleanup b _ h1 i s hi
    refine ⟨st, hg, ?_, ?_⟩
    · intro c hsc
      simp [hc, retains, declaredCommands, hsc, hs]
    · intro hsc
      simp [hc, retains, hsc]
  · rintro ⟨s, hmem, c, hsc, _⟩
    simp only [manifest_IsPrivileged_mk, List.any_eq_true]
    exact ⟨s, hmem, by simp [retains, hsc, hs]⟩

theorem cleanup_kept_when_squashing_witness :
    (oneStep.Steps.map step.Name).Nodup ∧ oneStep.Config.NoSquash = false
    ∧ ∃ m : Manifest, convertToBuild oneStep = .returned (some m) none
      ∧ (∀ (i : Nat) (s : step), oneStep.Steps[i]? = some s →
          ∃ st : Step, m.Steps[i]? = some st
            ∧ (∀ c : cleanup, s.Cleanup = some c → st.Cleanup = some ⟨c.Commands⟩)
            ∧ (s.Cleanup = none → st.Cleanup = some ⟨[]⟩))
      ∧ ((∃ s ∈ oneStep.Steps, ∃ c : cleanup, s.Cleanup = some c ∧ c.Commands ≠ []) →
          m.IsPrivileged = true) :=
  ⟨by decide, rfl, cleanup_kept_when_squashing oneStep (by decide) rfl⟩

/-- C9: with "no-squash" set and pairwise distinct names, whatever cleanup
blocks the descriptors declare, the manifest is not privileged and every step
carries a cleanup that is present and has no commands. -/
theorem cleanup_dropped_when_not_squashing (b : build)
    (h : (b.Steps.map step.Name).Nodup) (hs : b.Config.NoSquash = true) :
    ∃ m : Manifest, convertToBuild b = .returned (some m) none
      ∧ m.IsPrivileged = false
      ∧ ∀ st ∈ m.Steps, st.Cleanup = some ⟨[]⟩ := by
  obtain ⟨steps, h1, _⟩ := convertToBuild_ok b h
  have hr : ∀ s : step, retains b.Config s = false := fun s => by simp [retains, hs]
  refine ⟨_, h1, ?_, ?_⟩
  · simp [hr]
  · intro st hst
    obtain ⟨s, _, hc⟩ := convertToBuild_mem b _ h1 st hst
    simpa [hr] using hc

theorem cleanup_dropped_when_not_squashing_witness :
    ([(⟨"a", "Da", ["x"], some ⟨["rm -rf /tmp"]⟩⟩ : step), ⟨"b", "Db", [], none⟩].map
        step.Name).Nodup
    ∧ ∃ m : Manifest,
        convertToBuild
          ⟨".", [⟨"a", "Da", ["x"], some ⟨["rm -rf /tmp"]⟩⟩, ⟨"b", "Db", [], none⟩], ⟨true⟩⟩
          = .returned (some m) none
        ∧ m.IsPrivileged = false
        ∧ ∀ st ∈ m.Steps, st.Cleanup = some ⟨[]⟩ :=
  ⟨by decide,
   cleanup_dropped_when_not_squashing
     ⟨".", [⟨"a", "Da", ["x"], some ⟨["rm -rf /tmp"]⟩⟩, ⟨"b", "Db", [], none⟩], ⟨true⟩⟩
     (by decide) rfl⟩

/-- C10, as the code has it: the manifest of a successful conversion is
privileged if and only if "no-squash" is unset and some descriptor declares a
cleanup block, whether or not the block lists a command; in particular it is
privileged whenever one of its steps carries a cleanup with a command. -/
theorem privileged_iff_cleanup_declared (b : build) (m : Manifest)
    (h : convertToBuild b = .returned (some m) none) :
    (m.IsPrivileged = true ↔
        (b.Config.NoSquash = false ∧ ∃ s ∈ b.Steps, s.Cleanup ≠ none))
    ∧ ((∃ st ∈ m.Steps, ∃ c : Cleanup, st.Cleanup = some c ∧ c.Commands ≠ []) →
        m.IsPrivileged = true) := by
  have hp := (convertToBuild_step b m h).1
  have hiff : m.IsPrivileged = true ↔
      (b.Config.NoSquash = false ∧ ∃ s ∈ b.Steps, s.Cleanup ≠ none) := by
    rw [hp, List.any_eq_true]
    constructor
    · rintro ⟨s, hmem, hr⟩
      simp only [retains, Bool.and_eq_true, Bool.not_eq_true'] at hr
      exact ⟨hr.2, s, hmem, by
        intro hn
        simp [hn] at hr⟩
    · rintro ⟨hs, s, hmem, hne⟩
      refine ⟨s, hmem, ?_⟩
      cases hc : s.Cleanup with
      | none => exact absurd hc hne
      | some c => simp [retains, hc, hs]
  refine ⟨hiff, ?_⟩
  rintro ⟨st, hst, c, hc, hne⟩
  obtain ⟨s, hmem, hcs⟩ := convertToBuild_mem b m h st hst
  rw [hc] at hcs
  injection hcs with hcs
  subst hcs
  by_cases hr : retains b.Config s = true
  · rw [hp, List.any_eq_true]
    exact ⟨s, hmem, hr⟩
  · simp [hr] at hne

theorem privileged_iff_cleanup_declared_witness :
    convertToBuild oneStep = .returned (some oneStepManifest) none
    ∧ (oneStepManifest.IsPrivileged = true ↔
        (oneStep.Config.NoSquash = false ∧ ∃ s ∈ oneStep.Steps, s.Cleanup ≠ none))
    ∧ ((∃ st ∈ oneStepManifest.Steps, ∃ c : Cleanup, st.Cleanup = some c ∧ c.Commands ≠ []) →
        oneStepManifest.IsPrivileged = true) :=
  ⟨rfl, privileged_iff_cleanup_declared oneStep oneStepManifest rfl⟩

/-- C10 as stated fails: a descriptor whose cleanup block lists no command
makes the manifest privileged although no step of the manifest carries a
cleanup with a command. -/
theorem privileged_iff_cleanup_declared_counterexample :
    convertToBuild emptyCleanup = .returned (some emptyCleanupManifest) none
    ∧ emptyCleanupManifest.IsPrivileged = true
    ∧ emptyCleanupManifest.Steps.map Step.Cleanup = [some ⟨[]⟩]
    ∧ ¬ (emptyCleanupManifest.IsPrivileged = true ↔
          ∃ st ∈ emptyCleanupManifest.Steps, ∃ c : Cleanup,
            st.Cleanup = some c ∧ c.Commands ≠ []) := by
  refine ⟨rfl, rfl, rfl, ?_⟩
  intro hiff
  obtain ⟨st, hst, c, hc, hne⟩ := hiff.1 rfl
  simp [emptyCleanupManifest] at hst
  subst hst
  simp at hc
  subst hc
  exact hne rfl

/-! ## Auxiliary facts: lookup and snapshots -/

theorem findStepLoop_error (name : String) (l : List Step) :
    (findStepLoop name l).2 = none := by
  induction l with
  | nil => rfl
  | cons x rest ih =>
    by_cases hx : x.Name = name
    · simp [findStepLoop, hx]
    · simp [findStepLoop, hx, ih]

theorem findStepLoop_first (name : String) (l : List Step) :
    ∀ (i : Nat) (st : Step), l[i]? = some st → st.Name = name →
      (∀ (j : Nat) (t : Step), j < i → l[j]? = some t → t.Name ≠ name) →
      (findStepLoop name l).1 = some st := by
  induction l with
  | nil => intro i st hi; simp at hi
  | cons x rest ih =>
    intro i st hi hn hfirst
    cases i with
    | zero =>
      simp at hi
      subst hi
      simp [findStepLoop, hn]
    | succ i =>
      have hx : x.Name ≠ name := hfirst 0 x (Nat.succ_pos i) (by simp)
      simp only [findStepLoop, hx, if_false]
      apply ih i st (by simpa using hi) hn
      intro j t hj ht
      exact hfirst (j + 1) t (Nat.succ_lt_succ hj) (by simpa using ht)

theorem findStepLoop_absent (name : String) (l : List Step)
    (h : ∀ st ∈ l, st.Name ≠ name) : findStepLoop name l = (none, none) := by
  induction l with
  | nil => rfl
  | cons x rest ih =>
    have hx : x.Name ≠ name := h x (List.mem_cons_self _ _)
    simp only [findStepLoop, hx, if_false]
    exact ih fun st hst => h st (List.mem_cons_of_mem _ hst)

/-- Among steps with pairwise distinct names the scan finds each step by its
own name. -/
theorem findStepLoop_of_nodup (l : List Step) (hnd : (l.map Step.Name).Nodup)
    (i : Nat) (st : Step) (hi : l[i]? = some st) :
    findStepLoop st.Name l = (some st, none) := by
  have h1 : (findStepLoop st.Name l).1 = some st := by
    apply findStepLoop_first st.Name l i st hi rfl
    intro j t hj ht heq
    rw [List.nodup_iff_getElem?_ne_getElem?] at hnd
    have hlen : i < (l.map Step.Name).length := by
      simpa using (List.getElem?_eq_some.1 hi).1
    apply hnd j i hj hlen
    simp [List.getElem?_map, hi, ht, heq]
  have h2 := findStepLoop_error st.Name l
  exact Prod.ext h1 h2

/-- The step at an index of a returned manifest is built from the descriptor
at that index, against the steps before it. -/
theorem convertToBuild_step_at (b : build) (m : Manifest)
    (h : convertToBuild b = .returned (some m) none) (i : Nat) (st : Step)
    (hi : m.Steps[i]? = some st) :
    ∃ s : step, b.Steps[i]? = some s
      ∧ BuiltFrom b.Config i s
          (Manifest.mk (m.Steps.take i) ((b.Steps.take i).any (retains b.Config))) st := by
  obtain ⟨_, hlen, hstep⟩ := convertToBuild_step b m h
  have hib : i < b.Steps.length := hlen ▸ (List.getElem?_eq_some.1 hi).1
  obtain ⟨st2, hg, hb⟩ := hstep i b.Steps[i] (List.getElem?_eq_getElem hib)
  rw [hi] at hg
  injection hg with hg
  subst hg
  exact ⟨b.Steps[i], List.getElem?_eq_getElem hib, hb⟩

theorem any_take_iff {α : Type} (p : α → Bool) (l : List α) :
    ∀ i : Nat, (l.take i).any p = true ↔
      ∃ (j : Nat) (x : α), j < i ∧ l[j]? = some x ∧ p x = true := by
  induction l with
  | nil => intro i; simp
  | cons a rest ih =>
    intro i
    cases i with
    | zero => simp
    | succ i =>
      simp only [List.take_succ_cons, List.any_cons, Bool.or_eq_true, ih i]
      constructor
      · rintro (ha | ⟨j, x, hj, hx, hp⟩)
        · exact ⟨0, a, Nat.succ_pos i, by simp, ha⟩
        · exact ⟨j + 1, x, Nat.succ_lt_succ hj, by simpa using hx, hp⟩
      · rintro ⟨j, x, hj, hx, hp⟩
        cases j with
        | zero =>
          simp at hx
          subst hx
          exact Or.inl hp
        | succ j =>
          exact Or.inr ⟨j, x, Nat.lt_of_succ_lt_succ hj, by simpa using hx, hp⟩

/-! ## Auxiliary facts: the first name clash -/

/-- A descriptor whose name clashes with an earlier one, after descriptors
without a clash, ends the step loop with the error naming it, whatever
follows. -/
theorem stepLoop_first_clash (config : Config) (pre : List step) (s : step)
    (post : List step) :
    ∀ (idx : Nat) (r : Manifest), (pre.map step.Name).Nodup →
      (∀ x ∈ pre, x.Name ∉ r.Steps.map Step.Name) →
      (s.Name ∈ r.Steps.map Step.Name ∨ s.Name ∈ pre.map step.Name) →
      stepLoop config (pre ++ s :: post) idx r
        = .returned none (some (notUniqueError s.Name)) := by
  induction pre with
  | nil =>
    intro idx r _ _ hs
    obtain ⟨st, _, heq⟩ := stepLoop_cons config s post idx r
    have ht : nameTaken s.Name r.Steps = true := by
      rw [nameTaken_iff]
      simpa using hs
    simp [heq, ht]
  | cons x rest ih =>
    intro idx r hnd hall hs
    obtain ⟨st, hst, heq⟩ := stepLoop_cons config x (rest ++ s :: post) idx r
    rw [List.map_cons, List.nodup_cons] at hnd
    have hnot : ¬ nameTaken x.Name r.Steps = true := fun ht =>
      hall x (List.mem_cons_self _ _) ((nameTaken_iff _ _).1 ht)
    rw [List.cons_append, heq]
    simp only [hnot, if_false]
    apply ih (idx + 1) _ hnd.2
    · intro y hy hm
      simp only [manifest_Steps_mk, List.map_append, List.mem_append, List.map_cons,
        List.map_nil, List.mem_singleton] at hm
      rcases hm with hm | hm
      · exact hall y (List.mem_cons_of_mem _ hy) hm
      · rw [hst.name] at hm
        exact hnd.1 (hm ▸ List.mem_map_of_mem _ hy)
    · simp only [manifest_Steps_mk, List.map_append, List.mem_append, List.map_cons,
        List.map_nil, List.mem_singleton, hst.name]
      rcases hs with hs | hs
      · exact Or.inl (Or.inl hs)
      · rw [List.map_cons, List.mem_cons] at hs
        rcases hs with hs | hs
        · exact Or.inl (Or.inr hs)
        · exact Or.inr hs

/-- Descriptors with a repeated name split at the first descriptor whose name
repeats an earlier one. -/
theorem first_clash_split (l : List step) (h : ¬ (l.map step.Name).Nodup) :
    ∃ (pre : List step) (s : step) (post : List step), l = pre ++ s :: post
      ∧ (pre.map step.Name).Nodup ∧ s.Name ∈ pre.map step.Name := by
  induction l using List.reverseRecOn with
  | nil => simp at h
  | append_singleton init x ih =>
    by_cases hi : (init.map step.Name).Nodup
    · refine ⟨init, x, [], rfl, hi, ?_⟩
      by_contra hx
      apply h
      rw [List.map_append, List.nodup_append]
      refine ⟨hi, by simp, ?_⟩
      intro a ha hb
      simp at hb
      exact hx (hb ▸ ha)
    · obtain ⟨pre, s, post, he, hnd, hs⟩ := ih hi
      exact ⟨pre, s, post ++ [x], by simp [he], hnd, hs⟩

/-! ## Claims on the lookup, the snapshots and the error -/

/-- C11: `FindStepByName` never returns an error; it returns the step of
lowest index whose `Name` is the name looked up, and no step when no step of
the manifest has that name. -/
theorem findStepByName_first_match (m : Manifest) (n : String) :
    (m.FindStepByName n).2 = none
    ∧ (∀ (i : Nat) (st : Step), m.Steps[i]? = some st → st.Name = n →
        (∀ (j : Nat) (t : Step), j < i → m.Steps[j]? = some t → t.Name ≠ n) →
        (m.FindStepByName n).1 = some st)
    ∧ ((∀ st ∈ m.Steps, st.Name ≠ n) → (m.FindStepByName n).1 = none) := by
  refine ⟨findStepLoop_error n m.Steps, findStepLoop_first n m.Steps, ?_⟩
  intro h
  simp [Manifest.FindStepByName, findStepLoop_absent n m.Steps h]

theorem findStepByName_first_match_witness :
    (twoStepsManifest.FindStepByName "b").2 = none
    ∧ (twoStepsManifest.FindStepByName "b").1 = some twoStepsB
    ∧ (twoStepsManifest.FindStepByName "missing").1 = none :=
  ⟨(findStepByName_first_match twoStepsManifest "b").1,
   (findStepByName_first_match twoStepsManifest "b").2.1 1 twoStepsB rfl rfl (by
      intro j t hj ht
      have hj0 : j = 0 := by omega
      subst hj0
      simp [twoStepsManifest] at ht
      subst ht
      decide),
   (findStepByName_first_match twoStepsManifest "missing").2.2 (by
      intro st hst
      simp [twoStepsManifest] at hst
      rcases hst with rfl | rfl <;> decide)⟩

/-- C12: in a manifest returned by `convertToBuild` the lookup of the name of
the step at index `i` returns that very step, whose `Order` is `i`, and the
lookup of a name that no descriptor has returns no step; neither returns an
error. -/
theorem findStepByName_inverts_conversion (b : build) (m : Manifest)
    (h : convertToBuild b = .returned (some m) none) :
    (∀ (i : Nat) (st : Step), m.Steps[i]? = some st →
        m.FindStepByName st.Name = (some st, none) ∧ st.Order = i)
    ∧ (∀ n : String, n ∉ b.Steps.map step.Name → m.FindStepByName n = (none, none)) := by
  have hnames := convertToBuild_names b m h
  have hnd : (m.Steps.map Step.Name).Nodup := by
    rw [hnames]
    exact nodup_of_convertToBuild b m h
  refine ⟨?_, ?_⟩
  · intro i st hi
    refine ⟨findStepLoop_of_nodup m.Steps hnd i st hi, ?_⟩
    obtain ⟨s, _, hb⟩ := convertToBuild_step_at b m h i st hi
    obtain ⟨arts, rfl, _⟩ := hb.fields
    rfl
  · intro n hn
    apply findStepLoop_absent
    intro st hst heq
    apply hn
    rw [← hnames, ← heq]
    exact List.mem_map_of_mem _ hst

theorem findStepByName_inverts_conversion_witness :
    convertToBuild twoSteps = .returned (some twoStepsManifest) none
    ∧ twoStepsManifest.Steps[1]? = some twoStepsB
    ∧ twoStepsManifest.FindStepByName twoStepsB.Name = (some twoStepsB, none)
    ∧ twoStepsB.Order = 1 :=
  ⟨rfl, rfl,
   (findStepByName_inverts_conversion twoSteps twoStepsManifest rfl).1 1 twoStepsB rfl⟩

/-- C16: in a successful conversion the manifest copied into the step at
index `i` holds exactly the first `i` steps of the final manifest, and it is
privileged exactly when a descriptor of index below `i` retained its cleanup. -/
theorem step_manifest_is_snapshot (b : build) (m : Manifest)
    (h : convertToBuild b = .returned (some m) none) (i : Nat) (st : Step)
    (hi : m.Steps[i]? = some st) :
    st.Manifest.Steps = m.Steps.take i
    ∧ st.Manifest.Steps.length = i
    ∧ (st.Manifest.IsPrivileged = true ↔
        ∃ (j : Nat) (s : step), j < i ∧ b.Steps[j]? = some s ∧ retains b.Config s = true) := by
  obtain ⟨s, _, hb⟩ := convertToBuild_step_at b m h i st hi
  obtain ⟨arts, rfl, _⟩ := hb.fields
  have hlt : i < m.Steps.length := (List.getElem?_eq_some.1 hi).1
  refine ⟨rfl, ?_, ?_⟩
  · simp only [step_Manifest_mk, manifest_Steps_mk, List.length_take]
    omega
  · simp only [step_Manifest_mk, manifest_IsPrivileged_mk]
    exact any_take_iff (retains b.Config) b.Steps i

theorem step_manifest_is_snapshot_witness :
    convertToBuild twoSteps = .returned (some twoStepsManifest) none
    ∧ twoStepsManifest.Steps[1]? = some twoStepsB
    ∧ twoStepsB.Manifest.Steps = twoStepsManifest.Steps.take 1
    ∧ twoStepsB.Manifest.Steps.length = 1
    ∧ (twoStepsB.Manifest.IsPrivileged = true ↔
        ∃ (j : Nat) (s : step), j < 1 ∧ twoSteps.Steps[j]? = some s
          ∧ retains twoSteps.Config s = true) :=
  ⟨rfl, rfl, step_manifest_is_snapshot twoSteps twoStepsManifest rfl 1 twoStepsB rfl⟩

/-- C17: when `convertToBuild` returns an error, the error is
`Step name '<n>' is not unique` for the name `n` of the descriptor of lowest
index `j` that has the name of an earlier descriptor (the descriptors before
`j` have pairwise distinct names), and the descriptors after `j` have no
influence: replacing them by any others gives the same result. -/
theorem convertToBuild_reports_first_clash (b : build) (m : Option Manifest) (e : String)
    (h : convertToBuild b = .returned m (some e)) :
    ∃ (j : Nat) (s : step), b.Steps[j]? = some s
      ∧ (∃ (i : Nat) (t : step), i < j ∧ b.Steps[i]? = some t ∧ t.Name = s.Name)
      ∧ ((b.Steps.take j).map step.Name).Nodup
      ∧ e = "Step name '" ++ s.Name ++ "' is not unique"
      ∧ ∀ post : List step,
          convertToBuild ⟨b.Workdir, b.Steps.take (j + 1) ++ post, b.Config⟩
            = .returned none (some e) := by
  have hn : ¬ (b.Steps.map step.Name).Nodup := by
    intro hn
    obtain ⟨steps, h1, _⟩ := convertToBuild_ok b hn
    rw [h1] at h
    cases h
  obtain ⟨pre, s, post, hsplit, hnd, hs⟩ := first_clash_split b.Steps hn
  have hrun : ∀ post2 : List step,
      convertToBuild ⟨b.Workdir, pre ++ s :: post2, b.Config⟩
        = .returned none (some (notUniqueError s.Name)) := fun post2 =>
    stepLoop_first_clash b.Config pre s post2 0 (Manifest.mk [] false) hnd (by simp)
      (Or.inr hs)
  have he : e = notUniqueError s.Name := by
    have h2 := hrun post
    rw [← hsplit] at h2
    have h3 : convertToBuild ⟨b.Workdir, b.Steps, b.Config⟩ = convertToBuild b := rfl
    rw [h3, h] at h2
    injection h2 with _ h2
    injection h2
  have htake : b.Steps.take pre.length = pre := by
    rw [hsplit]
    simp
  have htake1 : b.Steps.take (pre.length + 1) = pre ++ [s] := by
    rw [hsplit, List.take_append_eq_append_take]
    simp
  have hget : b.Steps[pre.length]? = some s := by
    rw [hsplit, List.getElem?_append_right (Nat.le_refl _)]
    simp
  refine ⟨pre.length, s, hget, ?_, by rw [htake]; exact hnd, he, ?_⟩
  · obtain ⟨t, ht, hts⟩ := List.mem_map.1 hs
    obtain ⟨i, hi, hget⟩ := List.getElem_of_mem ht
    refine ⟨i, t, hi, ?_, hts⟩
    rw [hsplit, List.getElem?_append_left hi, List.getElem?_eq_getElem hi, hget]
  · intro post2
    rw [htake1, he]
    simpa using hrun post2

theorem convertToBuild_reports_first_clash_witness :
    convertToBuild threeClash = .returned none (some "Step name 'build' is not unique")
    ∧ ∃ (j : Nat) (s : step), threeClash.Steps[j]? = some s
      ∧ (∃ (i : Nat) (t : step), i < j ∧ threeClash.Steps[i]? = some t ∧ t.Name = s.Name)
      ∧ ((threeClash.Steps.take j).map step.Name).Nodup
      ∧ "Step name 'build' is not unique" = "Step name '" ++ s.Name ++ "' is not unique"
      ∧ ∀ post : List step,
          convertToBuild ⟨threeClash.Workdir, threeClash.Steps.take (j + 1) ++ post,
            threeClash.Config⟩
            = .returned none (some "Step name 'build' is not unique") :=
  ⟨rfl, convertToBuild_reports_first_clash threeClash none
    "Step name 'build' is not unique" rfl⟩

/-- C19: in a successful conversion the step copied into the `k`-th artefact
of a step has the `Order`, `Name`, `Dockerfile` and `Cleanup` of that step,
and as `Artefacts` exactly the first `k` artefacts of the step. -/
theorem artefact_step_is_snapshot (b : build) (m : Manifest)
    (h : convertToBuild b = .returned (some m) none) (i : Nat) (st : Step)
    (hi : m.Steps[i]? = some st) (k : Nat) (art : Artefact)
    (hk : st.Artefacts[k]? = some art) :
    art.Step.Order = st.Order ∧ art.Step.Name = st.Name
    ∧ art.Step.Dockerfile = st.Dockerfile ∧ art.Step.Cleanup = st.Cleanup
    ∧ art.Step.Artefacts = st.Artefacts.take k
    ∧ art.Step.Artefacts.length = k := by
  obtain ⟨s, _, hb⟩ := convertToBuild_step_at b m h i st hi
  obtain ⟨arts, rfl, hlen, harts⟩ := hb.fields
  simp only [step_Artefacts_mk] at hk
  have hka : k < arts.length := (List.getElem?_eq_some.1 hk).1
  have hks : k < s.Artefacts.length := hlen ▸ hka
  obtain ⟨src, dst, _, ha⟩ := harts k s.Artefacts[k] (List.getElem?_eq_getElem hks)
  rw [hk] at ha
  injection ha with ha
  subst ha
  refine ⟨rfl, rfl, rfl, rfl, rfl, ?_⟩
  simp only [artefact_Step_mk, step_Artefacts_mk, List.length_take]
  omega

theorem artefact_step_is_snapshot_witness :
    convertToBuild oneStep = .returned (some oneStepManifest) none
    ∧ oneStepManifest.Steps[0]? = some (oneStepWith [oneStepArt0, oneStepArt1])
    ∧ (oneStepWith [oneStepArt0, oneStepArt1]).Artefacts[1]? = some oneStepArt1
    ∧ oneStepArt1.Step.Order = (oneStepWith [oneStepArt0, oneStepArt1]).Order
    ∧ oneStepArt1.Step.Name = (oneStepWith [oneStepArt0, oneStepArt1]).Name
    ∧ oneStepArt1.Step.Dockerfile = (oneStepWith [oneStepArt0, oneStepArt1]).Dockerfile
    ∧ oneStepArt1.Step.Cleanup = (oneStepWith [oneStepArt0, oneStepArt1]).Cleanup
    ∧ oneStepArt1.Step.Artefacts = (oneStepWith [oneStepArt0, oneStepArt1]).Artefacts.take 1
    ∧ oneStepArt1.Step.Artefacts.length = 1 :=
  ⟨rfl, rfl, rfl,
   artefact_step_is_snapshot oneStep oneStepManifest rfl 0
     (oneStepWith [oneStepArt0, oneStepArt1]) rfl 1 oneStepArt1 rfl⟩

/-! ## Auxiliary facts: the pattern `_env\((.*)\)` -/

theorem lastClose_of_not_mem (l : List Char) (h : ')' ∉ l) : lastClose l = none := by
  induction l with
  | nil => rfl
  | cons c cs ih =>
    have hc : c ≠ ')' := fun e => h (by simp [e])
    have hcs : ')' ∉ cs := fun e => h (by simp [e])
    simp [lastClose, ih hcs, hc]

theorem lastClose_append_close (name post : List Char) (hn : '\n' ∉ name)
    (hp : ')' ∉ post) : lastClose (name ++ ')' :: post) = some name.length := by
  induction name with
  | nil => simp [lastClose, lastClose_of_not_mem post hp]
  | cons c cs ih =>
    have hc : c ≠ '\n' := fun e => hn (by simp [e])
    have hcs : '\n' ∉ cs := fun e => hn (by simp [e])
    simp [lastClose, hc, ih hcs]

theorem lastClose_lt (l : List Char) : ∀ k : Nat, lastClose l = some k → k < l.length := by
  induction l with
  | nil => intro k h; simp [lastClose] at h
  | cons c cs ih =>
    intro k h
    by_cases hc : c = '\n'
    · simp [lastClose, hc] at h
    · cases hr : lastClose cs with
      | some k2 =>
        have := ih k2 hr
        simp only [lastClose, hc, hr, if_false, Option.some.injEq] at h
        simp only [List.length_cons]
        omega
      | none =>
        by_cases hcl : c = ')'
        · subst hcl
          simp only [lastClose, hc, hr, if_false, if_true, Option.some.injEq] at h
          simp only [List.length_cons]
          omega
        · simp [lastClose, hc, hr, hcl] at h

/-- The group found in a text is found again in the text cut after its `)`. -/
theorem lastClose_take (l : List Char) :
    ∀ k : Nat, lastClose l = some k → lastClose (l.take (k + 1)) = some k := by
  induction l with
  | nil => intro k h; simp [lastClose] at h
  | cons c cs ih =>
    intro k h
    by_cases hc : c = '\n'
    · simp [lastClose, hc] at h
    · cases hr : lastClose cs with
      | some k2 =>
        simp only [lastClose, hc, hr, if_false, Option.some.injEq] at h
        subst h
        simp [lastClose, hc, ih k2 hr]
      | none =>
        by_cases hcl : c = ')'
        · subst hcl
          simp only [lastClose, hc, hr, if_false, if_true, Option.some.injEq] at h
          subst h
          simp [lastClose, hc]
        · simp [lastClose, hc, hr, hcl] at h

theorem matchHere_of_no_close (t : List Char) (h : ')' ∉ t) : matchHere t = none := by
  unfold matchHere
  split
  · exact lastClose_of_not_mem _ fun hm => h (List.mem_of_mem_drop hm)
  · rfl

theorem matchHere_of_not_prefix (t : List Char) (h : ¬ envOpen <+: t) :
    matchHere t = none := by
  unfold matchHere
  rw [if_neg]
  rw [List.isPrefixOf_iff_prefix]
  exact h

theorem matchHere_open (rest : List Char) :
    matchHere (envOpen ++ rest) = lastClose rest := by
  simp [matchHere, envOpen]

/-- No match starts inside a text without `_env(` that is followed by `_env(`. -/
theorem not_prefix_of_straddle (pre rest : List Char) (hne : pre ≠ [])
    (h : ¬ envOpen <:+: pre) : ¬ envOpen <+: pre ++ (envOpen ++ rest) := by
  intro hp
  rcases pre with _ | ⟨a, _ | ⟨b, _ | ⟨c, _ | ⟨d, _ | ⟨e, pre2⟩⟩⟩⟩⟩
  · exact hne rfl
  · simp [envOpen, List.cons_prefix_cons] at hp
  · simp [envOpen, List.cons_prefix_cons] at hp
  · simp [envOpen, List.cons_prefix_cons] at hp
  · simp [envOpen, List.cons_prefix_cons] at hp
  · apply h
    simp only [envOpen, List.cons_append, List.cons_prefix_cons] at hp
    obtain ⟨rfl, rfl, rfl, rfl, rfl, _⟩ := hp
    exact ⟨[], pre2, by simp [envOpen]⟩

/-! ## Auxiliary facts: `ReplaceAllFunc` -/

theorem replaceAllFunc_copy (repl : List Char → Option (List Char)) (c : Char)
    (cs : List Char) (h : matchHere (c :: cs) = none) :
    replaceAllFunc repl 0 (c :: cs)
      = match replaceAllFunc repl 0 cs with
        | some out => some (c :: out)
        | none => none := by
  simp [replaceAllFunc, h]

theorem replaceAllFunc_match (repl : List Char → Option (List Char)) (c : Char)
    (cs : List Char) (k : Nat) (h : matchHere (c :: cs) = some k) :
    replaceAllFunc repl 0 (c :: cs)
      = match repl ((c :: cs).take (k + 6)), replaceAllFunc repl (k + 5) cs with
        | some v, some out => some (v ++ out)
        | _, _ => none := by
  simp [replaceAllFunc, h]

theorem replaceAllFunc_skip (repl : List Char → Option (List Char)) (xs ys : List Char) :
    replaceAllFunc repl xs.length (xs ++ ys) = replaceAllFunc repl 0 ys := by
  induction xs with
  | nil => rfl
  | cons x rest ih => simpa [replaceAllFunc] using ih

theorem replaceAllFunc_no_close (repl : List Char → Option (List Char)) (t : List Char)
    (h : ')' ∉ t) : replaceAllFunc repl 0 t = some t := by
  induction t with
  | nil => rfl
  | cons c cs ih =>
    have hcs : ')' ∉ cs := fun e => h (by simp [e])
    rw [replaceAllFunc_copy repl c cs (matchHere_of_no_close _ h), ih hcs]

theorem replaceAllFunc_no_open (repl : List Char → Option (List Char)) (t : List Char)
    (h : ¬ envOpen <:+: t) : replaceAllFunc repl 0 t = some t := by
  induction t with
  | nil => rfl
  | cons c cs ih =>
    have hcs : ¬ envOpen <:+: cs := fun e => h (e.trans (List.suffix_cons c cs).isInfix)
    have hm : matchHere (c :: cs) = none :=
      matchHere_of_not_prefix _ fun e => h e.isInfix
    rw [replaceAllFunc_copy repl c cs hm, ih hcs]

/-- The text before the first `_env(` is copied. -/
theorem replaceAllFunc_pre (repl : List Char → Option (List Char)) (pre rest : List Char)
    (h : ¬ envOpen <:+: pre) :
    replaceAllFunc repl 0 (pre ++ (envOpen ++ rest))
      = match replaceAllFunc repl 0 (envOpen ++ rest) with
        | some out => some (pre ++ out)
        | none => none := by
  induction pre with
  | nil =>
    simp only [List.nil_append]
    cases replaceAllFunc repl 0 (envOpen ++ rest) <;> rfl
  | cons c cs ih =>
    have hcs : ¬ envOpen <:+: cs := fun e => h (e.trans (List.suffix_cons c cs).isInfix)
    have hm : matchHere (c :: (cs ++ (envOpen ++ rest))) = none :=
      matchHere_of_not_prefix _ (not_prefix_of_straddle (c :: cs) rest (by simp) h)
    rw [List.cons_append, replaceAllFunc_copy repl c _ hm, ih hcs]
    cases replaceAllFunc repl 0 (envOpen ++ rest) <;> rfl

/-- One token whose name has no newline, followed by a text without `)`:
the token is replaced, the text after it is copied. -/
theorem replaceAllFunc_token (repl : List Char → Option (List Char))
    (name post : List Char) (hn : '\n' ∉ name) (hp : ')' ∉ post) :
    replaceAllFunc repl 0 (envOpen ++ (name ++ ')' :: post))
      = match repl (envOpen ++ (name ++ [')'])) with
        | some v => some (v ++ post)
        | none => none := by
  have hm : matchHere (envOpen ++ (name ++ ')' :: post)) = some name.length := by
    rw [matchHere_open, lastClose_append_close name post hn hp]
  have htake : (envOpen ++ (name ++ ')' :: post)).take (name.length + 6)
      = envOpen ++ (name ++ [')']) := by
    have e : envOpen ++ (name ++ ')' :: post) = (envOpen ++ (name ++ [')'])) ++ post := by
      simp
    rw [e, List.take_left']
    simp [envOpen]
  have hskip : replaceAllFunc repl (name.length + 5)
      (['e', 'n', 'v', '('] ++ (name ++ ')' :: post)) = some post := by
    have e : ['e', 'n', 'v', '('] ++ (name ++ ')' :: post)
        = (['e', 'n', 'v', '('] ++ (name ++ [')'])) ++ post := by
      simp
    have hl : name.length + 5 = (['e', 'n', 'v', '('] ++ (name ++ [')'])).length := by
      simp
    rw [e, hl, replaceAllFunc_skip, replaceAllFunc_no_close repl post hp]
  have hcons : envOpen ++ (name ++ ')' :: post)
      = '_' :: (['e', 'n', 'v', '('] ++ (name ++ ')' :: post)) := rfl
  rw [hcons] at hm htake
  rw [hcons, replaceAllFunc_match repl _ _ _ hm, htake, hskip]
  cases repl (envOpen ++ (name ++ [')'])) <;> rfl

/-! ## Auxiliary facts: the replacement of one match -/

theorem matchHere_some (t : List Char) (k : Nat) (h : matchHere t = some k) :
    ∃ rest, t = envOpen ++ rest ∧ lastClose rest = some k := by
  unfold matchHere at h
  split at h
  · rename_i hp
    rw [List.isPrefixOf_iff_prefix] at hp
    obtain ⟨rest, rfl⟩ := hp
    exact ⟨rest, rfl, by simpa [envOpen] using h⟩
  · cases h

/-- Matching again inside the text of a match gives the same group. -/
theorem findStringSubmatch_match (rest : List Char) (k : Nat)
    (h : lastClose rest = some k) :
    findStringSubmatch (envOpen ++ rest.take (k + 1))
      = [envOpen ++ rest.take (k + 1), rest.take k] := by
  have hm : matchHere (envOpen ++ rest.take (k + 1)) = some k := by
    rw [matchHere_open, lastClose_take rest k h]
  have hlen : (rest.take (k + 1)).length = k + 1 := by
    have := lastClose_lt rest k h
    simp only [List.length_take]
    omega
  have hcons : envOpen ++ rest.take (k + 1)
      = '_' :: (['e', 'n', 'v', '('] ++ rest.take (k + 1)) := rfl
  rw [hcons] at hm
  rw [hcons]
  simp only [findStringSubmatch, hm]
  rw [← hcons]
  have h1 : (envOpen ++ rest.take (k + 1)).take (k + 6) = envOpen ++ rest.take (k + 1) := by
    apply List.take_of_length_le
    simp [envOpen, hlen]
  have h2 : ((envOpen ++ rest.take (k + 1)).drop 5).take k = rest.take k := by
    simp [envOpen, List.take_take]
  rw [h1, h2]

/-- The value a name resolves to: the process environment when the table is
empty, the table otherwise. -/
theorem replaceToken_match (envVars : EnvVars) (getenv : String → String)
    (rest : List Char) (k : Nat) (h : lastClose rest = some k) :
    replaceToken envVars getenv (envOpen ++ rest.take (k + 1))
      = some (if envVars.length = 0 then getenv (String.mk (rest.take k))
              else EnvVars.Find envVars (String.mk (rest.take k))).data := by
  unfold replaceToken
  rw [findStringSubmatch_match rest k h]
  by_cases he : envVars.length = 0 <;> simp [he]

theorem replaceToken_token (envVars : EnvVars) (getenv : String → String)
    (name : List Char) (hn : '\n' ∉ name) :
    replaceToken envVars getenv (envOpen ++ (name ++ [')']))
      = some (if envVars.length = 0 then getenv (String.mk name)
              else EnvVars.Find envVars (String.mk name)).data := by
  have h := lastClose_append_close name [] hn (by simp)
  have e := replaceToken_match envVars getenv (name ++ [')']) name.length h
  have h1 : (name ++ [')']).take (name.length + 1) = name ++ [')'] :=
    List.take_of_length_le (by simp)
  have h2 : (name ++ [')']).take name.length = name := by simp
  rw [h1, h2] at e
  exact e

/-- The substitution never indexes out of range. -/
theorem replaceAllFunc_total (envVars : EnvVars) (getenv : String → String)
    (t : List Char) :
    ∀ skip : Nat, ∃ out, replaceAllFunc (replaceToken envVars getenv) skip t = some out := by
  induction t with
  | nil => intro skip; exact ⟨[], by simp [replaceAllFunc]⟩
  | cons c cs ih =>
    intro skip
    cases skip with
    | succ n =>
      obtain ⟨out, ho⟩ := ih n
      exact ⟨out, by simpa [replaceAllFunc] using ho⟩
    | zero =>
      cases hm : matchHere (c :: cs) with
      | none =>
        obtain ⟨out, ho⟩ := ih 0
        exact ⟨c :: out, by rw [replaceAllFunc_copy _ c cs hm, ho]⟩
      | some k =>
        obtain ⟨out, ho⟩ := ih (k + 5)
        obtain ⟨rest, ht, hl⟩ := matchHere_some _ k hm
        have htake : (c :: cs).take (k + 6) = envOpen ++ rest.take (k + 1) := by
          rw [ht]
          simp [envOpen]
        rw [replaceAllFunc_match _ c cs k hm, htake, replaceToken_match envVars getenv rest k hl,
          ho]
        exact ⟨_, rfl⟩

theorem replaceToken_congr (envVars : EnvVars) (h : envVars ≠ [])
    (g1 g2 : String → String) : replaceToken envVars g1 = replaceToken envVars g2 := by
  funext s
  have hl : envVars.length ≠ 0 := by
    cases envVars with
    | nil => exact absurd rfl h
    | cons a rest => simp
  unfold replaceToken
  cases (findStringSubmatch s)[1]? with
  | none => rfl
  | some name => simp [hl]

theorem EnvVars.Find_absent (envVars : EnvVars) (name : String)
    (h : name ∉ envVars.map Prod.fst) : EnvVars.Find envVars name = "" := by
  induction envVars with
  | nil => rfl
  | cons kv rest ih =>
    obtain ⟨key, value⟩ := kv
    have hk : key ≠ name := fun e => h (by simp [e])
    have hr : name ∉ rest.map Prod.fst := fun e => h (by simp [e])
    simp [EnvVars.Find, hk, ih hr]

/-- The substitution of a text with one token, on the characters. -/
theorem parseForEnvVars_token (envVars : EnvVars) (getenv : String → String)
    (pre name post : String) (hpre : ¬ envOpen <:+: pre.data)
    (hname : '\n' ∉ name.data) (hpost : ')' ∉ post.data) :
    parseForEnvVars envVars getenv (pre ++ "_env(" ++ name ++ ")" ++ post)
      = some (pre ++ (if envVars.length = 0 then getenv name
                      else EnvVars.Find envVars name) ++ post) := by
  have hd : (pre ++ "_env(" ++ name ++ ")" ++ post).data
      = pre.data ++ (envOpen ++ (name.data ++ ')' :: post.data)) := by
    simp [String.data_append, envOpen]
  unfold parseForEnvVars
  rw [hd, replaceAllFunc_pre _ _ _ hpre, replaceAllFunc_token _ _ _ hname hpost,
    replaceToken_token envVars getenv name.data hname]
  simp only [Option.some.injEq]
  apply String.ext
  simp [String.data_append]

/-! ## Claims on `parseForEnvVars` -/

/-- C13: the code does not replace every token of a line by its own value.
On the line `_env(A)-_env(B)` the pattern matches once, from the first
`_env(` to the last `)`, so the whole line is replaced by the value of the
name `A)-_env(B` (empty here), and not by the value of `A`, a dash and the
value of `B`, whether the values come from the environment or from the
table. -/
theorem parseForEnvVars_two_tokens_on_a_line :
    parseForEnvVars [] sampleEnv "_env(A)-_env(B)" = some (sampleEnv "A)-_env(B")
    ∧ parseForEnvVars [] sampleEnv "_env(A)-_env(B)" = some ""
    ∧ sampleEnv "A" ++ "-" ++ sampleEnv "B" = "1-2"
    ∧ parseForEnvVars [("A", "1"), ("B", "2")] sampleEnv "_env(A)-_env(B)" = some ""
    ∧ EnvVars.Find [("A", "1"), ("B", "2")] "A" ++ "-"
        ++ EnvVars.Find [("A", "1"), ("B", "2")] "B" = "1-2" := by
  decide

/-- C14: a text `pre ++ "_env(" ++ name ++ ")" ++ post`, with no `_env(` in
`pre`, no newline in `name` and no `)` in `post`, becomes `pre ++ v ++ post`,
where `v` is the value of `name` in the process environment when the table is
empty and the value the table gives for `name` otherwise. -/
theorem parseForEnvVars_single_token (envVars : EnvVars) (getenv : String → String)
    (pre name post : String) (hpre : ¬ "_env(".data <:+: pre.data)
    (hname : '\n' ∉ name.data) (hpost : ')' ∉ post.data) :
    (envVars = [] →
      parseForEnvVars envVars getenv (pre ++ "_env(" ++ name ++ ")" ++ post)
        = some (pre ++ getenv name ++ post))
    ∧ (envVars ≠ [] →
      parseForEnvVars envVars getenv (pre ++ "_env(" ++ name ++ ")" ++ post)
        = some (pre ++ EnvVars.Find envVars name ++ post)) := by
  have h := parseForEnvVars_token envVars getenv pre name post hpre hname hpost
  constructor
  · intro he
    subst he
    simpa using h
  · intro he
    have hl : envVars.length ≠ 0 := by
      cases envVars with
      | nil => exact absurd rfl he
      | cons a rest => simp
    simpa [hl] using h

theorem parseForEnvVars_single_token_witness :
    ¬ "_env(".data <:+: "image: ".data ∧ '\n' ∉ "FOO".data ∧ ')' ∉ "/app\n".data
    ∧ parseForEnvVars [] sampleEnv ("image: " ++ "_env(" ++ "FOO" ++ ")" ++ "/app\n")
        = some ("image: " ++ sampleEnv "FOO" ++ "/app\n")
    ∧ parseForEnvVars [("FOO", "baz")] sampleEnv
          ("image: " ++ "_env(" ++ "FOO" ++ ")" ++ "/app\n")
        = some ("image: " ++ EnvVars.Find [("FOO", "baz")] "FOO" ++ "/app\n") :=
  ⟨by decide, by decide, by decide,
   (parseForEnvVars_single_token [] sampleEnv "image: " "FOO" "/app\n"
      (by decide) (by decide) (by decide)).1 rfl,
   (parseForEnvVars_single_token [("FOO", "baz")] sampleEnv "image: " "FOO" "/app\n"
      (by decide) (by decide) (by decide)).2 (by decide)⟩

/-- C15: with a non-empty table the result of `parseForEnvVars` is the same
for any two process environments, and a token whose name has no entry in the
table is replaced by the empty string. -/
theorem parseForEnvVars_ignores_environment (envVars : EnvVars) (h : envVars ≠ []) :
    (∀ (g1 g2 : String → String) (text : String),
      ∃ out : String, parseForEnvVars envVars g1 text = some out
        ∧ parseForEnvVars envVars g2 text = some out)
    ∧ (∀ (getenv : String → String) (pre name post : String),
        ¬ "_env(".data <:+: pre.data → '\n' ∉ name.data → ')' ∉ post.data →
        name ∉ envVars.map Prod.fst →
        parseForEnvVars envVars getenv (pre ++ "_env(" ++ name ++ ")" ++ post)
          = some (pre ++ "" ++ post)) := by
  have hl : envVars.length ≠ 0 := by
    cases envVars with
    | nil => exact absurd rfl h
    | cons a rest => simp
  constructor
  · intro g1 g2 text
    obtain ⟨out, ho⟩ := replaceAllFunc_total envVars g1 text.data 0
    refine ⟨String.mk out, ?_, ?_⟩
    · simp [parseForEnvVars, ho]
    · rw [replaceToken_congr envVars h g1 g2] at ho
      simp [parseForEnvVars, ho]
  · intro getenv pre name post hpre hname hpost habs
    rw [parseForEnvVars_token envVars getenv pre name post hpre hname hpost]
    simp [hl, EnvVars.Find_absent envVars name habs]

theorem parseForEnvVars_ignores_environment_witness :
    ([("FOO", "baz")] : EnvVars) ≠ []
    ∧ (∃ out : String,
        parseForEnvVars [("FOO", "baz")] sampleEnv "a: _env(FOO)\nb: _env(A)\n" = some out
        ∧ parseForEnvVars [("FOO", "baz")] (fun _ => "") "a: _env(FOO)\nb: _env(A)\n"
            = some out)
    ∧ parseForEnvVars [("FOO", "baz")] sampleEnv ("b: " ++ "_env(" ++ "A" ++ ")" ++ "\n")
        = some ("b: " ++ "" ++ "\n") :=
  ⟨by decide,
   (parseForEnvVars_ignores_environment [("FOO", "baz")] (by decide)).1 sampleEnv
      (fun _ => "") "a: _env(FOO)\nb: _env(A)\n",
   (parseForEnvVars_ignores_environment [("FOO", "baz")] (by decide)).2 sampleEnv
      "b: " "A" "\n" (by decide) (by decide) (by decide) (by decide)⟩

/-- C18: `parseForEnvVars` returns a text that does not contain `_env(`
unchanged, for every table and every process environment. -/
theorem parseForEnvVars_identity_without_token (envVars : EnvVars)
    (getenv : String → String) (text : String) (h : ¬ "_env(".data <:+: text.data) :
    parseForEnvVars envVars getenv text = some text := by
  unfold parseForEnvVars
  rw [replaceAllFunc_no_open _ text.data h]

theorem parseForEnvVars_identity_without_token_witness :
    ¬ "_env(".data <:+: "steps:\n  - name: env(x) _env\n".data
    ∧ parseForEnvVars [("FOO", "baz")] sampleEnv "steps:\n  - name: env(x) _env\n"
        = some "steps:\n  - name: env(x) _env\n" :=
  ⟨by decide,
   parseForEnvVars_identity_without_token [("FOO", "baz")] sampleEnv
     "steps:\n  - name: env(x) _env\n" (by decide)⟩

end Habitus
